import Mathlib

/-!
# Verification of the day-16 valve search (`src/bin/day16.rs`)

Shallow embedding of the time-bounded graph-search optimizer: the graph
model (`ValveId`, `Valve`, `Network`), the per-agent `PathState`, the
per-node frontier (`ValveState`), the step relaxation (`simulate_step`
split into its two phases), the single-agent driver (`find_path_solo`)
and the dual-agent coordinator (`find_path_elephant`), plus the input
parser (`Valve.fromStr`, `Network.build`).

Conventions of the embedding:
* Rust `u32` quantities are modelled as `Nat`; they are only added and
  multiplied except for `MAX_MINUTES - minutes` in `projected_flow`,
  where every caller has `minutes ≤ MAX_MINUTES`, so `Nat` truncated
  subtraction agrees with `u32`.
* The source fixes `const MAX_MINUTES: u32 = 30`; the horizon appears
  here as an explicit parameter `H` so that statements can quantify over
  it, `H = 30` being the repository's instantiation.
* Rust panics (`unwrap`, `assert!`, out-of-bounds indexing) are modelled
  with `Option`: `none` is a panic.  Typed `anyhow` errors are modelled
  with `Except String`.
* `Vec` indexing on well-formed data is modelled with `List.getD` /
  defaulted lookups; the theorems that rely on an index being in range
  carry the well-formedness of the graph (`Network.wf`) or condition on
  the surrounding computation having succeeded.
-/

set_option autoImplicit false

namespace Day16

/-- The two-byte label of a valve together with the dense numeric index
assigned by `Network::build` (`id: Option<usize>`).  Bytes are modelled
as the `Nat` codes of the two characters. -/
structure ValveId where
  id : Option Nat
  label : Nat × Nat
  deriving Repr, DecidableEq

/-- `ValveId::numeric`: the source unwraps the numeric id, which is
guaranteed to exist after `Network::build`; on built (well-formed)
graphs the default 0 is never taken. -/
def ValveId.numeric (v : ValveId) : Nat :=
  v.id.getD 0

/-- `PartialEq for ValveId` compares only the labels. -/
instance instBEqValveId : BEq ValveId := ⟨fun a b => decide (a.label = b.label)⟩

/-- A graph node: label, neighbour labels (with resolved indices after
build) and activation rate. -/
structure Valve where
  id : ValveId
  neighbours : List ValveId
  rate : Nat
  deriving Repr, DecidableEq

/-- The graph: an ordered collection of valves, indexed densely. -/
structure Network where
  nodes : List Valve
  deriving Repr, DecidableEq

/-- `Network::node`: defensive indexed lookup. -/
def Network.node (g : Network) (id : Nat) : Option Valve :=
  g.nodes.get? id

/-- Indexed lookup with a harmless default; the source always unwraps
`node(..)` at indices that exist on well-formed graphs. -/
def Network.nodeD (g : Network) (id : Nat) : Valve :=
  (g.node id).getD ⟨⟨none, (0, 0)⟩, [], 0⟩

/-- The rate stored at a numeric index (`g.node(i).unwrap().rate`);
0 when the index does not exist. -/
def Network.rateAt (g : Network) (i : Nat) : Nat :=
  ((g.node i).map Valve.rate).getD 0

/-- One action of an agent, in the order they were taken. -/
inductive Action where
  | MoveTo (v : ValveId)
  | Open (v : ValveId)
  | Wait
  deriving Repr, DecidableEq

/-- `PathState`: one agent's trajectory so far, stored as its action
history exactly as in the source. -/
structure PathState where
  actions : List Action
  deriving Repr, DecidableEq

namespace PathState

/-- `PathState::new`: the trivial state. -/
def new : PathState := ⟨[]⟩

/-- `PathState::new_elephant`: seeded with four waits, the fixed
scheduling delay of the dual-agent mode. -/
def new_elephant : PathState := ⟨List.replicate 4 .Wait⟩

/-- `PathState::with_move`. -/
def with_move (p : PathState) (vId : ValveId) : PathState :=
  ⟨p.actions ++ [.MoveTo vId]⟩

/-- `PathState::with_wait`. -/
def with_wait (p : PathState) : PathState :=
  ⟨p.actions ++ [.Wait]⟩

/-- `PathState::opened`: the ids of the valves opened so far. -/
def opened (p : PathState) : List ValveId :=
  p.actions.filterMap fun a =>
    match a with
    | .Open vid => some vid
    | _ => none

/-- `PathState::is_open`: whether the valve with numeric index `num`
has been opened. -/
def is_open (p : PathState) (num : Nat) : Bool :=
  p.opened.any fun vid => vid.numeric == num

/-- `PathState::with_open`: `assert!(!self.is_open(..))`, then push the
`Open` action.  The assertion failure (opening an already-open valve)
is a panic, modelled as `none`. -/
def with_open (p : PathState) (v : Valve) : Option PathState :=
  if p.is_open v.id.numeric then none
  else some ⟨p.actions ++ [.Open v.id]⟩

/-- `PathState::minutes`: elapsed time steps = number of actions. -/
def minutes (p : PathState) : Nat :=
  p.actions.length

/-- `PathState::current_flow`: the sum of the rates of all opened
valves. -/
def current_flow (p : PathState) (g : Network) : Nat :=
  p.opened.foldl (fun sum vid => sum + g.rateAt vid.numeric) 0

/-- The loop state of `PathState::total_flow`: `(cur_rate, sum)`,
updated per action in history order (`sum` first, with the old rate). -/
def flowAux (g : Network) : List Action → Nat × Nat → Nat × Nat
  | [], s => s
  | a :: rest, (cur, sum) =>
    flowAux g rest
      (match a with
       | .Open vid => (cur + g.rateAt vid.numeric, sum + cur)
       | _ => (cur, sum + cur))

/-- `PathState::total_flow`: cumulative flow accrued over the elapsed
steps. -/
def total_flow (p : PathState) (g : Network) : Nat :=
  (flowAux g p.actions (0, 0)).2

/-- `PathState::projected_flow`: cumulative flow plus a straight-line
extrapolation of the current contribution to the horizon.  The source
reads the global `MAX_MINUTES`; it is the parameter `H` here. -/
def projected_flow (p : PathState) (g : Network) (H : Nat) : Nat :=
  let minutes_left := H - p.minutes
  p.total_flow g + minutes_left * p.current_flow g

end PathState

/-- `ValveState`: a node's frontier entry — the currently favoured path
plus the alternative paths that reached the node without opening it. -/
structure ValveState where
  path : PathState
  alternatives : List PathState
  deriving Repr, DecidableEq

/-- `ValveState::new`: no alternatives. -/
def ValveState.new (p : PathState) : ValveState := ⟨p, []⟩

/-- Phase A's comparison of one alternative against the running best:
open the valve on the alternative (panics if it is already open — the
source comment notes "we know the valve is not yet open") and keep it
only if its projected flow strictly exceeds the running best's. -/
def chooseOpen (g : Network) (H : Nat) (v : Valve) (best alt : PathState) :
    Option PathState :=
  (alt.with_open v).map fun wo =>
    if wo.projected_flow g H > best.projected_flow g H then wo else best

/-- Phase A at one node (index `vId`, entry `vs`): open the valve if it
is closed and useful, otherwise wait; then let each alternative contest
the choice. -/
def phaseABest (g : Network) (H : Nat) (vId : Nat) (vs : ValveState) :
    Option PathState := do
  let v := g.nodeD vId
  let init ←
    if ¬ vs.path.is_open vId ∧ v.rate > 0 then vs.path.with_open v
    else pure vs.path.with_wait
  vs.alternatives.foldlM (chooseOpen g H v) init

/-- Phase A over the whole previous frontier (`for (v_id, v_state) in
last_state.iter().enumerate()`), starting at index `n`. -/
def phaseAAux (g : Network) (H : Nat) :
    Nat → List (Option ValveState) → Option (List (Option ValveState))
  | _, [] => some []
  | n, none :: rest => (phaseAAux g H (n + 1) rest).map (none :: ·)
  | n, some vs :: rest => do
    let bp ← phaseABest g H n vs
    let out ← phaseAAux g H (n + 1) rest
    pure (some (ValveState.new bp) :: out)

/-- Phase B's relaxation of one moved state into the neighbour's entry:
install if unvisited, replace on strictly greater projected flow, queue
as an alternative if the neighbour is still closed, discard
otherwise. -/
def phaseBUpdate (g : Network) (H : Nat) (cur : List (Option ValveState))
    (with_move : PathState) (nId : ValveId) : List (Option ValveState) :=
  let idx := nId.numeric
  match cur.getD idx none with
  | some n_state =>
    if with_move.projected_flow g H > n_state.path.projected_flow g H then
      cur.set idx (some ⟨with_move, n_state.alternatives⟩)
    else if ¬ with_move.opened.contains nId then
      cur.set idx (some ⟨n_state.path, n_state.alternatives ++ [with_move]⟩)
    else cur
  | none => cur.set idx (some (ValveState.new with_move))

/-- Phase B for one source node: move its best path to every
neighbour. -/
def phaseBMoves (g : Network) (H : Nat) (vId : Nat) (vs : ValveState)
    (cur : List (Option ValveState)) : List (Option ValveState) :=
  (g.nodeD vId).neighbours.foldl
    (fun cur nId => phaseBUpdate g H cur (vs.path.with_move nId) nId) cur

/-- Phase B over the whole previous frontier, starting at index `n`. -/
def phaseBAux (g : Network) (H : Nat) :
    Nat → List (Option ValveState) → List (Option ValveState) →
    List (Option ValveState)
  | _, [], cur => cur
  | n, none :: rest, cur => phaseBAux g H (n + 1) rest cur
  | n, some vs :: rest, cur => phaseBAux g H (n + 1) rest (phaseBMoves g H n vs cur)

/-- `simulate_step`: one time step of the relaxation — Phase A
(activate) into a fresh frontier, then Phase B (move), both reading
only the previous frontier. -/
def simulate_step (g : Network) (H : Nat) (last_state : List (Option ValveState)) :
    Option (List (Option ValveState)) :=
  (phaseAAux g H 0 last_state).map (phaseBAux g H 0 last_state)

/-- Run `simulate_step` a given number of times. -/
def runSim (g : Network) (H : Nat) :
    Nat → List (Option ValveState) → Option (List (Option ValveState))
  | 0, st => some st
  | k + 1, st => (simulate_step g H st).bind (runSim g H k)

/-- The initial frontier of `find_path_solo`: the trivial state at the
start node (index 0). -/
def initStateWith (g : Network) (p : PathState) : List (Option ValveState) :=
  (List.replicate g.nodes.length (none : Option ValveState)).set 0
    (some (ValveState.new p))

/-- `find_path_solo`'s readout: `last_state[0].unwrap()` as the seed,
then keep the entry with strictly greater total flow. -/
def soloBest (g : Network) (st : List (Option ValveState)) : Option ValveState :=
  match st.getD 0 none with
  | none => none
  | some seed =>
    some ((st.filterMap id).foldl
      (fun best vs =>
        if vs.path.total_flow g > best.path.total_flow g then vs else best)
      seed)

/-- `find_path_solo`: seed the frontier, run `MAX_MINUTES` (= `H`)
steps, read out the best total flow. -/
def find_path_solo (g : Network) (H : Nat) : Option Nat :=
  (runSim g H H (initStateWith g PathState.new)).bind fun st =>
    (soloBest g st).map fun best => best.path.total_flow g

/-- The graph with the rate of node `i` forced to zero
(`g_clone.node_mut(..).unwrap().rate = 0`). -/
def Network.zeroRate (g : Network) (i : Nat) : Network :=
  ⟨g.nodes.set i { g.nodes.getD i ⟨⟨none, (0, 0)⟩, [], 0⟩ with rate := 0 }⟩

/-- The graph with every valve opened by `p` zeroed out. -/
def Network.zeroOpened (g : Network) (p : PathState) : Network :=
  p.opened.foldl (fun gc vid => gc.zeroRate vid.numeric) g

/-- The running result of the dual-agent coordinator:
`(human_best, elephant_best, max_flow)`. -/
abbrev PairResult := PathState × PathState × Nat

/-- The body of `find_path_elephant`'s scan of one frontier entry of
the first agent: zero the valves it opened, run the complete delayed
inner search for the second agent up to the current minute, pick the
inner entry with the greatest projected flow (seeded with
`last_elephant_state[0].unwrap()`), and record the pair if the summed
projection strictly beats the running maximum. -/
def elephantStep (g : Network) (H min : Nat) (acc : PairResult)
    (v_state : ValveState) : Option PairResult := do
  let human_flow := v_state.path.projected_flow g H
  let g_clone := g.zeroOpened v_state.path
  let est ← runSim g_clone H (min + 1 - 4)
    (initStateWith g PathState.new_elephant)
  match est.getD 0 none with
  | none => none
  | some seed =>
    let round_best := (est.filterMap id).foldl
      (fun best vs =>
        if vs.path.projected_flow g H > best.path.projected_flow g H then vs
        else best)
      seed
    let elephant_flow := round_best.path.projected_flow g H
    pure (if elephant_flow + human_flow > acc.2.2 then
           (v_state.path, round_best.path, human_flow + elephant_flow)
          else acc)

/-- One outer step's scan over every current frontier entry of the
first agent (`for v_state in last_state.iter().flatten()`). -/
def elephantScan (g : Network) (H min : Nat) (entries : List ValveState)
    (acc : PairResult) : Option PairResult :=
  entries.foldlM (elephantStep g H min) acc

/-- The outer loop of `find_path_elephant` (`for min in 4..MAX_MINUTES`):
advance the first agent one step, then scan all its entries. -/
def elephantOuter (g : Network) (H : Nat) :
    Nat → Nat → List (Option ValveState) → PairResult → Option PairResult
  | 0, _, _, acc => some acc
  | fuel + 1, min, st, acc => do
    let st' ← simulate_step g H st
    let acc' ← elephantScan g H min (st'.filterMap id) acc
    elephantOuter g H fuel (min + 1) st' acc'

/-- `find_path_elephant`, kept together with the winning pair it
records: start both agents with the four-wait delay, run the outer loop
from minute 4, return `(human_best, elephant_best, max_flow)`. -/
def find_path_elephant_full (g : Network) (H : Nat) : Option PairResult :=
  elephantOuter g H (H - 4) 4 (initStateWith g PathState.new_elephant)
    (PathState.new_elephant, PathState.new_elephant, 0)

/-- `find_path_elephant`: the numeric result alone. -/
def find_path_elephant (g : Network) (H : Nat) : Option Nat :=
  (find_path_elephant_full g H).map (·.2.2)

/-- Well-formedness of a built graph, as a decidable check: every node
stores its own dense index, and every neighbour reference resolves to an
existing node carrying the referenced label. `Network::build`
establishes exactly this. -/
def Network.wfAt (g : Network) (i : Nat) (v : Valve) : Bool :=
  (v.id.id == some i) &&
  v.neighbours.all fun nb =>
    match nb.id with
    | some j =>
      match g.node j with
      | some w => w.id.label == nb.label
      | none => false
    | none => false

/-- Auxiliary indexed traversal for `Network.wf`. -/
def Network.wfFrom (g : Network) : Nat → List Valve → Bool
  | _, [] => true
  | i, v :: rest => g.wfAt i v && g.wfFrom (i + 1) rest

/-- A graph is well-formed when every node passes `wfAt` at its own
index. -/
def Network.wf (g : Network) : Bool :=
  g.wfFrom 0 g.nodes

/-! ## Basic list helpers -/

theorem getD_none_eq_some {α : Type} {l : List (Option α)} {i : Nat} {a : α}
    (h : l.getD i none = some a) : l[i]? = some (some a) := by
  cases hg : l[i]? with
  | none => simp [List.getD, hg] at h
  | some x => simp [List.getD, hg] at h; simp [h]

theorem getD_none_lt_length {α : Type} {l : List (Option α)} {i : Nat} {a : α}
    (h : l.getD i none = some a) : i < l.length := by
  by_contra hi
  have : l[i]? = none := List.getElem?_eq_none_iff.mpr (by omega)
  simp [List.getD, this] at h

theorem getD_set_self {α : Type} {l : List (Option α)} {i : Nat} (x : Option α)
    (h : i < l.length) : (l.set i x).getD i none = x := by
  simp [List.getD, List.getElem?_set_eq_of_lt x h]

theorem getD_set_ne {α : Type} {l : List (Option α)} {i j : Nat} (x : Option α)
    (h : i ≠ j) : (l.set i x).getD j none = l.getD j none := by
  simp [List.getD, List.getElem?_set_ne h]

theorem foldl_add_sum {α : Type} (f : α → Nat) :
    ∀ (l : List α) (a : Nat), l.foldl (fun s x => s + f x) a = a + (l.map f).sum
  | [], a => by simp
  | x :: l, a => by
    simp [List.foldl_cons, foldl_add_sum f l (a + f x), Nat.add_assoc]

/-! ## Flow bookkeeping lemmas for `PathState` -/

namespace PathState

theorem opened_mk_append (l₁ l₂ : List Action) :
    (⟨l₁ ++ l₂⟩ : PathState).opened =
      (⟨l₁⟩ : PathState).opened ++ (⟨l₂⟩ : PathState).opened := by
  simp [opened, List.filterMap_append]

theorem opened_wait (p : PathState) : p.with_wait.opened = p.opened := by
  simpa [with_wait, opened] using opened_mk_append p.actions [.Wait]

theorem opened_move (p : PathState) (vid : ValveId) :
    (p.with_move vid).opened = p.opened := by
  simpa [with_move, opened] using opened_mk_append p.actions [.MoveTo vid]

theorem opened_openPush (p : PathState) (vid : ValveId) :
    (⟨p.actions ++ [.Open vid]⟩ : PathState).opened = p.opened ++ [vid] := by
  simpa [opened] using opened_mk_append p.actions [.Open vid]

theorem minutes_wait (p : PathState) : p.with_wait.minutes = p.minutes + 1 := by
  simp [with_wait, minutes]

theorem minutes_move (p : PathState) (vid : ValveId) :
    (p.with_move vid).minutes = p.minutes + 1 := by
  simp [with_move, minutes]

theorem minutes_openPush (p : PathState) (vid : ValveId) :
    (⟨p.actions ++ [.Open vid]⟩ : PathState).minutes = p.minutes + 1 := by
  simp [minutes]

theorem current_flow_eq_sum (p : PathState) (g : Network) :
    p.current_flow g = (p.opened.map fun vid => g.rateAt vid.numeric).sum := by
  simpa [current_flow] using foldl_add_sum (fun vid : ValveId => g.rateAt vid.numeric) p.opened 0

theorem flowAux_append (g : Network) (l₁ l₂ : List Action) (s : Nat × Nat) :
    flowAux g (l₁ ++ l₂) s = flowAux g l₂ (flowAux g l₁ s) := by
  induction l₁ generalizing s with
  | nil => simp [flowAux]
  | cons a l ih =>
    obtain ⟨c, sum⟩ := s
    cases a <;> simp [flowAux, ih]

theorem flowAux_fst (g : Network) :
    ∀ (l : List Action) (c s : Nat),
      (flowAux g l (c, s)).1 =
        c + ((⟨l⟩ : PathState).opened.map fun vid => g.rateAt vid.numeric).sum
  | [], c, s => by simp [flowAux, opened]
  | .Open vid :: l, c, s => by
    have := flowAux_fst g l (c + g.rateAt vid.numeric) (s + c)
    simp only [flowAux] at *
    rw [this]
    simp [opened, Nat.add_assoc]
  | .MoveTo vid :: l, c, s => by
    have := flowAux_fst g l c (s + c)
    simp only [flowAux] at *
    rw [this]
    simp [opened]
  | .Wait :: l, c, s => by
    have := flowAux_fst g l c (s + c)
    simp only [flowAux] at *
    rw [this]
    simp [opened]

theorem flowAux_fst_current (p : PathState) (g : Network) :
    (flowAux g p.actions (0, 0)).1 = p.current_flow g := by
  rw [current_flow_eq_sum]
  simpa using flowAux_fst g p.actions 0 0

theorem total_flow_mk_append_one (p : PathState) (g : Network) (a : Action) :
    (⟨p.actions ++ [a]⟩ : PathState).total_flow g = p.total_flow g + p.current_flow g := by
  show (flowAux g (p.actions ++ [a]) (0, 0)).2 = _
  rw [flowAux_append]
  have h1 : (flowAux g p.actions (0, 0)) =
      ((flowAux g p.actions (0, 0)).1, (flowAux g p.actions (0, 0)).2) := rfl
  rw [h1, flowAux_fst_current]
  cases a <;> simp [flowAux, total_flow]

theorem total_flow_wait (p : PathState) (g : Network) :
    p.with_wait.total_flow g = p.total_flow g + p.current_flow g :=
  total_flow_mk_append_one p g .Wait

theorem total_flow_move (p : PathState) (g : Network) (vid : ValveId) :
    (p.with_move vid).total_flow g = p.total_flow g + p.current_flow g :=
  total_flow_mk_append_one p g (.MoveTo vid)

theorem total_flow_openPush (p : PathState) (g : Network) (vid : ValveId) :
    (⟨p.actions ++ [.Open vid]⟩ : PathState).total_flow g =
      p.total_flow g + p.current_flow g :=
  total_flow_mk_append_one p g (.Open vid)

theorem current_flow_wait (p : PathState) (g : Network) :
    p.with_wait.current_flow g = p.current_flow g := by
  simp [current_flow, opened_wait]

theorem current_flow_move (p : PathState) (g : Network) (vid : ValveId) :
    (p.with_move vid).current_flow g = p.current_flow g := by
  simp [current_flow, opened_move]

theorem current_flow_openPush (p : PathState) (g : Network) (vid : ValveId) :
    (⟨p.actions ++ [.Open vid]⟩ : PathState).current_flow g =
      p.current_flow g + g.rateAt vid.numeric := by
  rw [current_flow_eq_sum, current_flow_eq_sum, opened_openPush]
  simp

theorem projected_wait (p : PathState) (g : Network) (H : Nat) (h : p.minutes < H) :
    p.with_wait.projected_flow g H = p.projected_flow g H := by
  simp only [projected_flow, total_flow_wait, current_flow_wait, minutes_wait]
  have h1 : H - p.minutes = (H - (p.minutes + 1)) + 1 := by omega
  rw [h1, Nat.succ_mul]
  omega

theorem projected_move (p : PathState) (g : Network) (H : Nat) (vid : ValveId)
    (h : p.minutes < H) :
    (p.with_move vid).projected_flow g H = p.projected_flow g H := by
  simp only [projected_flow, total_flow_move, current_flow_move, minutes_move]
  have h1 : H - p.minutes = (H - (p.minutes + 1)) + 1 := by omega
  rw [h1, Nat.succ_mul]
  omega

theorem projected_openPush (p : PathState) (g : Network) (H : Nat) (vid : ValveId)
    (h : p.minutes < H) :
    (⟨p.actions ++ [.Open vid]⟩ : PathState).projected_flow g H =
      p.projected_flow g H + (H - p.minutes - 1) * g.rateAt vid.numeric := by
  simp only [projected_flow, total_flow_openPush, current_flow_openPush, minutes_openPush]
  have h2 : H - p.minutes - 1 = H - (p.minutes + 1) := by omega
  have h1 : H - p.minutes = (H - (p.minutes + 1)) + 1 := by omega
  rw [h2, h1, Nat.succ_mul, Nat.mul_add]
  ring

theorem projected_ge_total (p : PathState) (g : Network) (H : Nat) :
    p.total_flow g ≤ p.projected_flow g H := by
  simp [projected_flow]

end PathState

/-! ## Concrete fixtures for counterexamples and witnesses -/

/-- Start node `AA` (rate 0) of the three-node line fixture. -/
def idA : ValveId := ⟨some 0, (65, 65)⟩

/-- Node `BB` (rate 1) of the three-node line fixture. -/
def idB : ValveId := ⟨some 1, (66, 66)⟩

/-- Node `CC` (rate 1) of the three-node line fixture. -/
def idC : ValveId := ⟨some 2, (67, 67)⟩

/-- A line graph `AA (rate 0) — BB (rate 1) — CC (rate 1)`: two useful
(non-zero-rate, reachable) nodes behind the start. -/
def lineG : Network :=
  ⟨[⟨idA, [idB], 0⟩, ⟨idB, [idA, idC], 1⟩, ⟨idC, [idB], 1⟩]⟩

/-! ## C2: `projected_flow` is cumulative flow plus straight-line extrapolation -/

/-- C2. For every Path State with elapsed time at most the horizon,
`projected_flow` equals the cumulative flow (`total_flow`) plus
(horizon − elapsed) times the per-step contribution, the sum of the
rates of all valves the state has opened. -/
theorem projected_flow_spec (p : PathState) (g : Network) (H : Nat)
    (h : p.minutes ≤ H) :
    p.projected_flow g H =
      p.total_flow g +
        (H - p.minutes) * ((p.opened.map fun vid => g.rateAt vid.numeric).sum) := by
  simp [PathState.projected_flow, PathState.current_flow_eq_sum]

/-- Witness for C2 at a concrete state on the line fixture. -/
theorem projected_flow_spec_witness :
    PathState.minutes ⟨[.Open idB, .Wait]⟩ ≤ 5 ∧
    PathState.projected_flow ⟨[.Open idB, .Wait]⟩ lineG 5 =
      PathState.total_flow ⟨[.Open idB, .Wait]⟩ lineG +
        (5 - PathState.minutes ⟨[.Open idB, .Wait]⟩) *
          (((PathState.opened ⟨[.Open idB, .Wait]⟩).map
            fun vid => lineG.rateAt vid.numeric).sum) :=
  ⟨by decide, projected_flow_spec ⟨[.Open idB, .Wait]⟩ lineG 5 (by decide)⟩

/-! ## C3: `total_flow` is the sum of the per-step contributions in effect -/

theorem opened_cons_open (vid : ValveId) (l : List Action) :
    (⟨.Open vid :: l⟩ : PathState).opened = vid :: (⟨l⟩ : PathState).opened := by
  simp [PathState.opened]

theorem opened_cons_move (vid : ValveId) (l : List Action) :
    (⟨.MoveTo vid :: l⟩ : PathState).opened = (⟨l⟩ : PathState).opened := by
  simp [PathState.opened]

theorem opened_cons_wait (l : List Action) :
    (⟨.Wait :: l⟩ : PathState).opened = (⟨l⟩ : PathState).opened := by
  simp [PathState.opened]

theorem flowAux_snd_stepwise (g : Network) :
    ∀ (l : List Action) (c s : Nat),
      (PathState.flowAux g l (c, s)).2 =
        s + ((List.range l.length).map fun i =>
          c + (((⟨l.take i⟩ : PathState).opened.map fun vid => g.rateAt vid.numeric).sum)).sum := by
  intro l
  induction l with
  | nil => intro c s; simp [PathState.flowAux, PathState.opened]
  | cons a rest ih =>
    intro c s
    have hr : List.range (rest.length + 1) = 0 :: (List.range rest.length).map Nat.succ :=
      List.range_succ_eq_map rest.length
    cases a with
    | Open vid =>
      have hmap : (List.range rest.length).map
          ((fun i => c + (((⟨(Action.Open vid :: rest).take i⟩ : PathState).opened.map
            fun w => g.rateAt w.numeric).sum)) ∘ Nat.succ) =
          (List.range rest.length).map
          (fun i => (c + g.rateAt vid.numeric) + (((⟨rest.take i⟩ : PathState).opened.map
            fun w => g.rateAt w.numeric).sum)) := by
        apply List.map_congr_left
        intro i _
        simp [Function.comp, List.take_succ_cons, opened_cons_open, Nat.add_assoc]
      simp only [PathState.flowAux, List.length_cons, hr, List.map_cons, List.map_map,
        List.sum_cons, hmap, ih]
      have hz : ((⟨(Action.Open vid :: rest).take 0⟩ : PathState).opened.map
          (fun w => g.rateAt w.numeric)).sum = 0 := by
        simp [PathState.opened]
      generalize ((List.range rest.length).map
        (fun i => (c + g.rateAt vid.numeric) + (((⟨rest.take i⟩ : PathState).opened.map
          fun w => g.rateAt w.numeric).sum))).sum = S
      omega
    | MoveTo vid =>
      have hmap : (List.range rest.length).map
          ((fun i => c + (((⟨(Action.MoveTo vid :: rest).take i⟩ : PathState).opened.map
            fun w => g.rateAt w.numeric).sum)) ∘ Nat.succ) =
          (List.range rest.length).map
          (fun i => c + (((⟨rest.take i⟩ : PathState).opened.map
            fun w => g.rateAt w.numeric).sum)) := by
        apply List.map_congr_left
        intro i _
        simp [Function.comp, List.take_succ_cons, opened_cons_move]
      simp only [PathState.flowAux, List.length_cons, hr, List.map_cons, List.map_map,
        List.sum_cons, hmap, ih]
      have hz : ((⟨(Action.MoveTo vid :: rest).take 0⟩ : PathState).opened.map
          (fun w => g.rateAt w.numeric)).sum = 0 := by
        simp [PathState.opened]
      generalize ((List.range rest.length).map
        (fun i => c + (((⟨rest.take i⟩ : PathState).opened.map
          fun w => g.rateAt w.numeric).sum))).sum = S
      omega
    | Wait =>
      have hmap : (List.range rest.length).map
          ((fun i => c + (((⟨(Action.Wait :: rest).take i⟩ : PathState).opened.map
            fun w => g.rateAt w.numeric).sum)) ∘ Nat.succ) =
          (List.range rest.length).map
          (fun i => c + (((⟨rest.take i⟩ : PathState).opened.map
            fun w => g.rateAt w.numeric).sum)) := by
        apply List.map_congr_left
        intro i _
        simp [Function.comp, List.take_succ_cons, opened_cons_wait]
      simp only [PathState.flowAux, List.length_cons, hr, List.map_cons, List.map_map,
        List.sum_cons, hmap, ih]
      have hz : ((⟨(Action.Wait :: rest).take 0⟩ : PathState).opened.map
          (fun w => g.rateAt w.numeric)).sum = 0 := by
        simp [PathState.opened]
      generalize ((List.range rest.length).map
        (fun i => c + (((⟨rest.take i⟩ : PathState).opened.map
          fun w => g.rateAt w.numeric).sum))).sum = S
      omega

/-- C3. The cumulative flow computed by `total_flow` is the sum, over
each elapsed step, of the per-step contribution in effect during that
step: the contribution of step `i` is the `current_flow` of the strict
prefix of the first `i` actions, so a valve opened at step `i` counts
only from step `i + 1` on, never during the opening step itself. -/
theorem total_flow_stepwise (p : PathState) (g : Network) :
    p.total_flow g =
      ((List.range p.minutes).map fun i =>
        PathState.current_flow ⟨p.actions.take i⟩ g).sum := by
  have := flowAux_snd_stepwise g p.actions 0 0
  simp only [PathState.total_flow, PathState.minutes, this, Nat.zero_add]
  congr 1
  apply List.map_congr_left
  intro i _
  simp [PathState.current_flow_eq_sum]

/-! ## C4: strict greater-than replacement, ties keep the incumbent -/

/-- C4. Both relaxation comparisons replace the incumbent best if and
only if the candidate's projected flow is strictly greater, keeping the
earlier-installed state on an exact tie: in Phase A an activated
alternative contests the chosen best through `chooseOpen`, and in
Phase B a moved state arriving at an occupied node contests the
neighbour's best through `phaseBUpdate`. -/
theorem relaxation_tiebreak :
    (∀ (g : Network) (H : Nat) (v : Valve) (best alt wo : PathState),
      alt.with_open v = some wo →
      chooseOpen g H v best alt =
        some (if wo.projected_flow g H > best.projected_flow g H then wo else best)) ∧
    (∀ (g : Network) (H : Nat) (cur : List (Option ValveState))
      (moved : PathState) (nId : ValveId) (ns : ValveState),
      cur.getD nId.numeric none = some ns →
      ∃ alts, (phaseBUpdate g H cur moved nId).getD nId.numeric none =
        some ⟨if moved.projected_flow g H > ns.path.projected_flow g H then moved
              else ns.path, alts⟩) := by
  constructor
  · intro g H v best alt wo h
    simp [chooseOpen, h]
  · intro g H cur moved nId ns h
    have hlt : nId.numeric < cur.length := getD_none_lt_length h
    unfold phaseBUpdate
    dsimp only
    rw [h]
    dsimp only
    by_cases hgt : moved.projected_flow g H > ns.path.projected_flow g H
    · refine ⟨ns.alternatives, ?_⟩
      rw [if_pos hgt, if_pos hgt]
      exact getD_set_self _ hlt
    · by_cases hop : moved.opened.contains nId
      · refine ⟨ns.alternatives, ?_⟩
        rw [if_neg hgt, if_neg (by simp [hop]), if_neg hgt]
        exact h
      · refine ⟨ns.alternatives ++ [moved], ?_⟩
        rw [if_neg hgt, if_pos (by simp [hop]), if_neg hgt]
        exact getD_set_self _ hlt

/-- Witness for C4: Phase A alternative contest and Phase B arrival on
the line fixture, both at concrete states. -/
theorem relaxation_tiebreak_witness :
    (PathState.with_open ⟨[]⟩ ⟨idB, [idA, idC], 1⟩ = some ⟨[.Open idB]⟩ ∧
      chooseOpen lineG 9 ⟨idB, [idA, idC], 1⟩ ⟨[.Wait]⟩ ⟨[]⟩ =
        some (if PathState.projected_flow ⟨[.Open idB]⟩ lineG 9 >
                PathState.projected_flow ⟨[.Wait]⟩ lineG 9 then ⟨[.Open idB]⟩
              else ⟨[.Wait]⟩)) ∧
    ([some (ValveState.new ⟨[.Wait]⟩), none, none].getD idB.numeric none = none ∧
      [some (ValveState.new ⟨[.Wait]⟩), some (ValveState.new ⟨[.Open idB]⟩),
        none].getD idB.numeric none = some (ValveState.new ⟨[.Open idB]⟩) ∧
      ∃ alts,
        (phaseBUpdate lineG 9 [some (ValveState.new ⟨[.Wait]⟩),
          some (ValveState.new ⟨[.Open idB]⟩), none] ⟨[.MoveTo idB]⟩ idB).getD
            idB.numeric none =
          some ⟨if PathState.projected_flow ⟨[.MoveTo idB]⟩ lineG 9 >
                  PathState.projected_flow ⟨[.Open idB]⟩ lineG 9
                then ⟨[.MoveTo idB]⟩ else ⟨[.Open idB]⟩, alts⟩) :=
  ⟨⟨by decide, relaxation_tiebreak.1 lineG 9 ⟨idB, [idA, idC], 1⟩ ⟨[.Wait]⟩ ⟨[]⟩
      ⟨[.Open idB]⟩ (by decide)⟩,
   by decide, by decide,
   relaxation_tiebreak.2 lineG 9
     [some (ValveState.new ⟨[.Wait]⟩), some (ValveState.new ⟨[.Open idB]⟩), none]
     ⟨[.MoveTo idB]⟩ idB (ValveState.new ⟨[.Open idB]⟩) (by decide)⟩

/-! ## C10: frontier entries persist across `simulate_step` -/

theorem isSome_getD_lt_length {α : Type} {l : List (Option α)} {i : Nat}
    (h : (l.getD i none).isSome) : i < l.length := by
  obtain ⟨a, ha⟩ := Option.isSome_iff_exists.mp h
  exact getD_none_lt_length ha

theorem phaseAAux_isSome (g : Network) (H : Nat) :
    ∀ (st : List (Option ValveState)) (n : Nat) (out : List (Option ValveState)),
      phaseAAux g H n st = some out →
      out.length = st.length ∧
        ∀ i, (st.getD i none).isSome → (out.getD i none).isSome := by
  intro st
  induction st with
  | nil =>
    intro n out h
    simp [phaseAAux] at h
    subst h
    exact ⟨rfl, by intro i hi; exact hi⟩
  | cons x rest ih =>
    intro n out h
    cases x with
    | none =>
      simp only [phaseAAux, Option.map_eq_some'] at h
      obtain ⟨out', hrec, rfl⟩ := h
      obtain ⟨hlen, hsome⟩ := ih (n + 1) out' hrec
      refine ⟨by simp [hlen], ?_⟩
      intro i
      cases i with
      | zero => simp [List.getD_cons_zero]
      | succ j => simpa [List.getD_cons_succ] using hsome j
    | some vs =>
      simp only [phaseAAux, Option.bind_eq_bind, Option.bind_eq_some, Option.pure_def,
        Option.some_inj] at h
      obtain ⟨bp, hbp, out', hrec, rfl⟩ := h
      obtain ⟨hlen, hsome⟩ := ih (n + 1) out' hrec
      refine ⟨by simp [hlen], ?_⟩
      intro i
      cases i with
      | zero => simp [List.getD_cons_zero]
      | succ j => simpa [List.getD_cons_succ] using hsome j

theorem phaseBUpdate_isSome (g : Network) (H : Nat)
    (cur : List (Option ValveState)) (moved : PathState) (nId : ValveId) (i : Nat)
    (h : (cur.getD i none).isSome) :
    ((phaseBUpdate g H cur moved nId).getD i none).isSome := by
  have hset : ∀ x : ValveState,
      ((cur.set nId.numeric (some x)).getD i none).isSome := by
    intro x
    by_cases hi : nId.numeric = i
    · subst hi
      rw [getD_set_self _ (isSome_getD_lt_length h)]
      rfl
    · rwa [getD_set_ne _ hi]
  unfold phaseBUpdate
  dsimp only
  cases hcur : cur.getD nId.numeric none with
  | none => exact hset _
  | some ns =>
    dsimp only
    by_cases hgt : moved.projected_flow g H > ns.path.projected_flow g H
    · rw [if_pos hgt]; exact hset _
    · rw [if_neg hgt]
      by_cases hop : moved.opened.contains nId
      · rw [if_neg (by simp [hop])]; exact h
      · rw [if_pos (by simp [hop])]; exact hset _

theorem phaseBMoves_isSome (g : Network) (H : Nat) (vId : Nat) (vs : ValveState) :
    ∀ (nbs : List ValveId) (cur : List (Option ValveState)) (i : Nat),
      (cur.getD i none).isSome →
      ((nbs.foldl (fun cur nId => phaseBUpdate g H cur (vs.path.with_move nId) nId)
          cur).getD i none).isSome
  | [], cur, i, h => h
  | nId :: nbs, cur, i, h => by
    simp only [List.foldl_cons]
    exact phaseBMoves_isSome g H vId vs nbs _ i (phaseBUpdate_isSome g H cur _ nId i h)

theorem phaseBAux_isSome (g : Network) (H : Nat) :
    ∀ (src : List (Option ValveState)) (n : Nat) (cur : List (Option ValveState)) (i : Nat),
      (cur.getD i none).isSome →
      ((phaseBAux g H n src cur).getD i none).isSome
  | [], _, _, _, h => h
  | none :: rest, n, cur, i, h => phaseBAux_isSome g H rest (n + 1) cur i h
  | some vs :: rest, n, cur, i, h =>
    phaseBAux_isSome g H rest (n + 1) _ i (phaseBMoves_isSome g H n vs _ cur i h)

/-- C10. Frontier entries persist: a node holding a `some` entry before
a `simulate_step` call holds one after it (Phase A re-installs every
occupied node, Phase B only installs or replaces entries); consequently
the start node, seeded at initialization, still has an entry after any
number of steps, so the `last_state[0].unwrap()` readouts of both
drivers never fail on a non-empty graph. -/
theorem frontier_persists :
    (∀ (g : Network) (H : Nat) (st st' : List (Option ValveState)) (i : Nat),
      simulate_step g H st = some st' →
      (st.getD i none).isSome → (st'.getD i none).isSome) ∧
    (∀ (g : Network) (H k : Nat) (p : PathState) (st : List (Option ValveState)),
      0 < g.nodes.length →
      runSim g H k (initStateWith g p) = some st →
      (st.getD 0 none).isSome) := by
  have hstep : ∀ (g : Network) (H : Nat) (st st' : List (Option ValveState)) (i : Nat),
      simulate_step g H st = some st' →
      (st.getD i none).isSome → (st'.getD i none).isSome := by
    intro g H st st' i h hi
    simp only [simulate_step, Option.map_eq_some'] at h
    obtain ⟨mid, hmid, rfl⟩ := h
    exact phaseBAux_isSome g H st 0 mid i ((phaseAAux_isSome g H st 0 mid hmid).2 i hi)
  have hrun : ∀ (g : Network) (H k : Nat) (st st' : List (Option ValveState)) (i : Nat),
      runSim g H k st = some st' →
      (st.getD i none).isSome → (st'.getD i none).isSome := by
    intro g H k
    induction k with
    | zero =>
      intro st st' i h hi
      simp only [runSim] at h
      cases h
      exact hi
    | succ j ih =>
      intro st st' i h hi
      simp only [runSim, Option.bind_eq_bind, Option.bind_eq_some] at h
      obtain ⟨st₁, hst₁, hrest⟩ := h
      exact ih st₁ st' i hrest (hstep g H st st₁ i hst₁ hi)
  refine ⟨hstep, ?_⟩
  intro g H k p st hg h
  have hinit : ((initStateWith g p).getD 0 none).isSome := by
    rw [initStateWith, getD_set_self _ (by simpa using hg)]
    rfl
  exact hrun g H k _ st 0 h hinit

/-- Witness for C10 on the line fixture: one step preserves the start
entry, and so does the whole solo run. -/
theorem frontier_persists_witness :
    (∃ st', simulate_step lineG 6 (initStateWith lineG PathState.new) = some st' ∧
      (st'.getD 0 none).isSome) ∧
    (∃ st, runSim lineG 6 6 (initStateWith lineG PathState.new) = some st ∧
      (st.getD 0 none).isSome) := by
  constructor
  · have h : (simulate_step lineG 6 (initStateWith lineG PathState.new)).isSome = true := by
      decide
    obtain ⟨st', hst⟩ := Option.isSome_iff_exists.mp h
    exact ⟨st', hst, frontier_persists.1 lineG 6 _ st' 0 hst (by decide)⟩
  · have h : (runSim lineG 6 6 (initStateWith lineG PathState.new)).isSome = true := by
      decide
    obtain ⟨st, hst⟩ := Option.isSome_iff_exists.mp h
    exact ⟨st, hst, frontier_persists.2 lineG 6 6 PathState.new st (by decide) hst⟩

/-! ## C9: the readout winner is the earliest maximizer -/

theorem foldl_best_split (f : ValveState → Nat) :
    ∀ (l : List ValveState) (seed : ValveState),
      ∃ l₁ l₂, seed :: l = l₁ ++ (l.foldl (fun b v => if f v > f b then v else b) seed) :: l₂ ∧
        (∀ e ∈ l₁, f e < f (l.foldl (fun b v => if f v > f b then v else b) seed)) ∧
        (∀ e ∈ l₂, f e ≤ f (l.foldl (fun b v => if f v > f b then v else b) seed)) := by
  intro l
  induction l with
  | nil =>
    intro seed
    exact ⟨[], [], rfl, by simp, by simp⟩
  | cons e rest ih =>
    intro seed
    rw [List.foldl_cons]
    by_cases h : f e > f seed
    · rw [if_pos h]
      obtain ⟨l₁, l₂, heq, hlt, hle⟩ := ih e
      refine ⟨seed :: l₁, l₂, by rw [List.cons_append, ← heq], ?_, hle⟩
      intro x hx
      rcases List.mem_cons.mp hx with hx | hx
      · subst hx
        have he : f e ≤ f (rest.foldl (fun b v => if f v > f b then v else b) e) := by
          have : e ∈ e :: rest := List.mem_cons_self e rest
          rw [heq] at this
          rcases List.mem_append.mp this with h1 | h1
          · exact le_of_lt (hlt e h1)
          · rcases List.mem_cons.mp h1 with h2 | h2
            · exact le_of_eq (congrArg f h2)
            · exact hle e h2
        omega
      · exact hlt x hx
    · rw [if_neg h]
      obtain ⟨l₁, l₂, heq, hlt, hle⟩ := ih seed
      cases l₁ with
      | nil =>
        simp only [List.nil_append] at heq
        have hw : rest.foldl (fun b v => if f v > f b then v else b) seed = seed :=
          (List.head_eq_of_cons_eq heq.symm)
        have ht : l₂ = rest := (List.tail_eq_of_cons_eq heq.symm)
        refine ⟨[], e :: rest, ?_, by simp, ?_⟩
        · simp [hw]
        · intro x hx
          rcases List.mem_cons.mp hx with hx | hx
          · subst hx; rw [hw]; omega
          · rw [← ht] at hx
            exact hle x hx
      | cons y l₁' =>
        have hy : y = seed := (List.head_eq_of_cons_eq heq).symm
        have ht : rest = l₁' ++ rest.foldl (fun b v => if f v > f b then v else b) seed :: l₂ :=
          List.tail_eq_of_cons_eq heq
        refine ⟨seed :: e :: l₁', l₂, ?_, ?_, hle⟩
        · rw [List.cons_append, List.cons_append, ← ht]
        · intro x hx
          have hseed : f seed < f (rest.foldl (fun b v => if f v > f b then v else b) seed) := by
            have := hlt y (List.mem_cons_self _ _)
            rwa [hy] at this
          rcases List.mem_cons.mp hx with hx | hx
          · subst hx; exact hseed
          · rcases List.mem_cons.mp hx with hx | hx
            · subst hx; omega
            · exact hlt x (List.mem_cons_of_mem _ hx)

/-- The `find_path_solo` readout picks exactly the earliest entry (in
the fixed index iteration order) attaining the maximum total flow. -/
theorem soloBest_spec (g : Network) (st : List (Option ValveState)) (w : ValveState)
    (h : soloBest g st = some w) :
    ∃ l₁ l₂, st.filterMap id = l₁ ++ w :: l₂ ∧
      (∀ e ∈ l₁, e.path.total_flow g < w.path.total_flow g) ∧
      (∀ e ∈ l₂, e.path.total_flow g ≤ w.path.total_flow g) := by
  unfold soloBest at h
  cases hseed : st.getD 0 none with
  | none => rw [hseed] at h; exact absurd h (by simp)
  | some seed =>
    rw [hseed] at h
    simp only [Option.some_inj] at h
    have h0 : st[0]? = some (some seed) := getD_none_eq_some hseed
    obtain ⟨t, rfl⟩ : ∃ t, st = some seed :: t := by
      cases st with
      | nil => simp at h0
      | cons x t =>
        simp only [List.getElem?_cons_zero, Option.some_inj] at h0
        exact ⟨t, by rw [h0]⟩
    have hfm : (some seed :: t).filterMap (id : Option ValveState → Option ValveState) =
        seed :: t.filterMap id := by simp
    rw [hfm] at h ⊢
    rw [List.foldl_cons, if_neg (lt_irrefl _)] at h
    subst h
    exact foldl_best_split (fun vs => vs.path.total_flow g) (t.filterMap id) seed

/-- C9. Determinism of the single-agent search: on the same graph and
horizon the driver returns exactly the total flow of one winning state
`w`, and `w` is uniquely pinned by the fixed iteration order — it is
the earliest frontier entry attaining the maximum total flow (every
earlier entry is strictly smaller, every later one no larger), so any
two runs select the same value and the same winning action sequence. -/
theorem solo_winner_first_max (g : Network) (H : Nat) (st : List (Option ValveState))
    (w : ValveState)
    (hrun : runSim g H H (initStateWith g PathState.new) = some st)
    (hbest : soloBest g st = some w) :
    find_path_solo g H = some (w.path.total_flow g) ∧
    ∃ l₁ l₂, st.filterMap id = l₁ ++ w :: l₂ ∧
      (∀ e ∈ l₁, e.path.total_flow g < w.path.total_flow g) ∧
      (∀ e ∈ l₂, e.path.total_flow g ≤ w.path.total_flow g) := by
  refine ⟨?_, soloBest_spec g st w hbest⟩
  simp [find_path_solo, hrun, hbest]

/-- Witness for C9: the solo run on the line fixture. -/
theorem solo_winner_first_max_witness :
    ∃ st w, runSim lineG 8 8 (initStateWith lineG PathState.new) = some st ∧
      soloBest lineG st = some w ∧
      find_path_solo lineG 8 = some (w.path.total_flow lineG) := by
  have h : ((runSim lineG 8 8 (initStateWith lineG PathState.new)).bind
      (soloBest lineG)).isSome = true := by decide
  obtain ⟨w, hw⟩ := Option.isSome_iff_exists.mp h
  obtain ⟨st, hrun, hbest⟩ := Option.bind_eq_some.mp hw
  exact ⟨st, w, hrun, hbest, (solo_winner_first_max lineG 8 st w hrun hbest).1⟩

/-! ## C7: single isolated node, `solve = R * (horizon - 1)` -/

/-- A graph consisting of one start node with rate `R` and no
neighbours, as `Network::build` would produce it. -/
def singleG (lbl : Nat × Nat) (R : Nat) : Network :=
  ⟨[⟨⟨some 0, lbl⟩, [], R⟩]⟩

theorem flowAux_replicate_wait (g : Network) :
    ∀ (j c s : Nat),
      PathState.flowAux g (List.replicate j .Wait) (c, s) = (c, s + j * c) := by
  intro j
  induction j with
  | zero => intro c s; simp [PathState.flowAux]
  | succ i ih =>
    intro c s
    rw [List.replicate_succ]
    show PathState.flowAux g (List.replicate i .Wait) (c, s + c) = (c, s + (i + 1) * c)
    rw [ih c (s + c), Nat.succ_mul, Prod.mk.injEq]
    refine ⟨rfl, ?_⟩
    generalize i * c = t
    omega

theorem phaseABest_noalt (g : Network) (H : Nat) (vId : Nat) (p : PathState) :
    phaseABest g H vId ⟨p, []⟩ =
      if ¬ p.is_open vId ∧ (g.nodeD vId).rate > 0 then p.with_open (g.nodeD vId)
      else some p.with_wait := by
  by_cases hc : ¬ p.is_open vId ∧ (g.nodeD vId).rate > 0
  · simp [phaseABest, hc]
  · simp [phaseABest, hc]

theorem sim_single (lbl : Nat × Nat) (R H : Nat) (p : PathState) :
    simulate_step (singleG lbl R) H [some ⟨p, []⟩] =
      some [some ⟨if p.is_open 0 = false ∧ 0 < R
                  then ⟨p.actions ++ [.Open ⟨some 0, lbl⟩]⟩
                  else p.with_wait, []⟩] := by
  have hnode : (singleG lbl R).nodeD 0 = ⟨⟨some 0, lbl⟩, [], R⟩ := rfl
  have hB : ∀ cur, phaseBAux (singleG lbl R) H 0 [some ⟨p, []⟩] cur = cur := by
    intro cur
    simp [phaseBAux, phaseBMoves, hnode]
  have hbest : phaseABest (singleG lbl R) H 0 ⟨p, []⟩ =
      some (if p.is_open 0 = false ∧ 0 < R
            then ⟨p.actions ++ [.Open ⟨some 0, lbl⟩]⟩
            else p.with_wait) := by
    rw [phaseABest_noalt, hnode]
    cases hio : p.is_open 0 with
    | false =>
      rcases Nat.eq_zero_or_pos R with hR | hR
      · subst hR
        simp [hio]
      · simp [hio, hR, PathState.with_open, ValveId.numeric]
    | true => simp [hio]
  have hA : phaseAAux (singleG lbl R) H 0 [some ⟨p, []⟩] =
      some [some ⟨if p.is_open 0 = false ∧ 0 < R
                  then ⟨p.actions ++ [.Open ⟨some 0, lbl⟩]⟩
                  else p.with_wait, []⟩] := by
    simp [phaseAAux, hbest, ValveState.new]
  simp [simulate_step, hA, hB]

theorem is_open_openPush_self (p : PathState) (lbl : Nat × Nat) :
    (⟨p.actions ++ [.Open ⟨some 0, lbl⟩]⟩ : PathState).is_open 0 = true := by
  simp [PathState.is_open, PathState.opened_openPush p ⟨some 0, lbl⟩, ValveId.numeric]

theorem is_open_wait (p : PathState) (n : Nat) :
    p.with_wait.is_open n = p.is_open n := by
  simp [PathState.is_open, PathState.opened_wait]

theorem runSim_single_stay (lbl : Nat × Nat) (R H : Nat)
    (hstay : ∀ p : PathState, (p.is_open 0 = false ∧ 0 < R) → False) :
    ∀ (j : Nat) (p : PathState),
      runSim (singleG lbl R) H j [some ⟨p, []⟩] =
        some [some ⟨⟨p.actions ++ List.replicate j .Wait⟩, []⟩] := by
  intro j
  induction j with
  | zero => intro p; simp [runSim]
  | succ i ih =>
    intro p
    have hcond : ¬ (p.is_open 0 = false ∧ 0 < R) := fun h => hstay p h
    rw [runSim, sim_single, if_neg hcond, Option.some_bind, ih p.with_wait]
    rw [PathState.with_wait]
    simp [List.replicate_succ, List.append_assoc]

theorem runSim_single_opened (lbl : Nat × Nat) (R H : Nat) :
    ∀ (j : Nat) (p : PathState), p.is_open 0 = true →
      runSim (singleG lbl R) H j [some ⟨p, []⟩] =
        some [some ⟨⟨p.actions ++ List.replicate j .Wait⟩, []⟩] := by
  intro j
  induction j with
  | zero => intro p _; simp [runSim]
  | succ i ih =>
    intro p hp
    have hcond : ¬ (p.is_open 0 = false ∧ 0 < R) := by
      intro h
      rw [hp] at h
      exact absurd h.1 (by simp)
    rw [runSim, sim_single, if_neg hcond, Option.some_bind,
      ih p.with_wait (by rw [is_open_wait, hp])]
    rw [PathState.with_wait]
    simp [List.replicate_succ, List.append_assoc]

theorem soloBest_singleton (g : Network) (vs : ValveState) :
    soloBest g [some vs] = some vs := by
  simp [soloBest, List.getD_cons_zero]

/-- C7. On a graph with a single start node of rate `R` and no
neighbours, the single-agent search spends one step activating the node
and flows `R` per remaining step: `solve = R * (horizon − 1)` for every
horizon ≥ 1 (also when `R = 0`, where nothing is ever activated). -/
theorem solo_single_node (lbl : Nat × Nat) (R H : Nat) (h : 1 ≤ H) :
    find_path_solo (singleG lbl R) H = some (R * (H - 1)) := by
  have hinit : initStateWith (singleG lbl R) PathState.new =
      [some ⟨⟨[]⟩, []⟩] := rfl
  rcases Nat.eq_zero_or_pos R with hR | hR
  · subst hR
    have hrun := runSim_single_stay lbl 0 H (fun _ hp => Nat.lt_irrefl 0 hp.2) H ⟨[]⟩
    rw [find_path_solo, hinit, hrun, Option.some_bind, soloBest_singleton]
    have htot : PathState.total_flow ⟨(⟨[]⟩ : PathState).actions ++ List.replicate H .Wait⟩
        (singleG lbl 0) = 0 := by
      show (PathState.flowAux _ _ ((0 : Nat), (0 : Nat))).2 = 0
      simp only [List.nil_append]
      rw [flowAux_replicate_wait]
      simp
    simp only [List.nil_append] at htot
    simp [htot]
  · obtain ⟨H', rfl⟩ : ∃ H', H = H' + 1 := ⟨H - 1, by omega⟩
    have hfirst : simulate_step (singleG lbl R) (H' + 1) [some ⟨⟨[]⟩, []⟩] =
        some [some ⟨⟨[.Open ⟨some 0, lbl⟩]⟩, []⟩] := by
      rw [sim_single, if_pos]
      · rfl
      · exact ⟨by simp [PathState.is_open, PathState.opened], hR⟩
    have hrest := runSim_single_opened lbl R (H' + 1) H' ⟨[.Open ⟨some 0, lbl⟩]⟩
      (is_open_openPush_self ⟨[]⟩ lbl)
    rw [find_path_solo, hinit, runSim, hfirst, Option.some_bind, hrest,
      Option.some_bind, soloBest_singleton]
    have htot : PathState.total_flow ⟨.Open ⟨some 0, lbl⟩ :: List.replicate H' .Wait⟩
        (singleG lbl R) = H' * R := by
      have : (singleG lbl R).rateAt (ValveId.numeric ⟨some 0, lbl⟩) = R := rfl
      simp [PathState.total_flow, PathState.flowAux, this, flowAux_replicate_wait]
    simp at hrest ⊢
    rw [htot]
    simp [Nat.mul_comm]

/-- Witness for C7 at rate 7, horizon 5. -/
theorem solo_single_node_witness :
    1 ≤ 5 ∧ find_path_solo (singleG (65, 65) 7) 5 = some (7 * (5 - 1)) :=
  ⟨by decide, solo_single_node (65, 65) 7 5 (by decide)⟩

/-! ## C8: dual-agent vs single-agent result -/

/-- Counterexample to C8 as stated.  On the line fixture (two useful,
reachable non-zero-rate nodes `BB` and `CC`) with horizon 8 — where the
delayed second agent does act (the recorded winning elephant path opens
`CC`) — the dual-agent result 3 is strictly below the single-agent
result 10: both of the pair's agents lose the four delay steps, so
cooperation does not recover the undelayed solo value. -/
theorem solve_pair_lt_solo_cex :
    lineG.rateAt 1 = 1 ∧ lineG.rateAt 2 = 1 ∧
    find_path_solo lineG 8 = some 10 ∧
    find_path_elephant lineG 8 = some 3 ∧
    (∃ hb eb, find_path_elephant_full lineG 8 = some (hb, eb, 3) ∧
      eb.opened ≠ []) ∧
    (3 : Nat) < 10 := by
  refine ⟨rfl, rfl, by decide, by decide, ?_, by decide⟩
  exact ⟨⟨[.Wait, .Wait, .Wait, .Wait, .MoveTo idB, .Open idB, .MoveTo idA]⟩,
    ⟨[.Wait, .Wait, .Wait, .Wait, .MoveTo idB, .MoveTo idC, .Open idC]⟩,
    by decide, by decide⟩

/-- Comparator for the amended C8: the single-agent driver seeded, like
each of the pair's agents, with the four-wait scheduling delay and run
over the same outer step range `4..H` (`H − 4` steps).  This definition
follows the spec's delayed-agent wording for the comparison; it is not
itself a function of the source. -/
def find_path_solo_delayed (g : Network) (H : Nat) : Option Nat :=
  (runSim g H (H - 4) (initStateWith g PathState.new_elephant)).bind fun st =>
    (soloBest g st).map fun best => best.path.total_flow g

theorem elephantStep_ge (g : Network) (H min : Nat) (acc : PairResult)
    (e : ValveState) (acc1 : PairResult)
    (h : elephantStep g H min acc e = some acc1) :
    acc.2.2 ≤ acc1.2.2 ∧ e.path.projected_flow g H ≤ acc1.2.2 := by
  unfold elephantStep at h
  simp only [Option.bind_eq_bind, Option.bind_eq_some] at h
  obtain ⟨est, _, h⟩ := h
  cases hseed : est.getD 0 none with
  | none => rw [hseed] at h; exact absurd h (by simp)
  | some seed =>
    rw [hseed] at h
    simp only [Option.pure_def, Option.some_inj] at h
    by_cases hgt : ((est.filterMap id).foldl
        (fun best vs =>
          if vs.path.projected_flow g H > best.path.projected_flow g H then vs
          else best) seed).path.projected_flow g H + e.path.projected_flow g H >
        acc.2.2
    · rw [if_pos hgt] at h
      subst h
      exact ⟨by dsimp only; omega, by dsimp only; omega⟩
    · rw [if_neg hgt] at h
      subst h
      exact ⟨le_refl _, by omega⟩

theorem elephantScan_ge (g : Network) (H min : Nat) :
    ∀ (entries : List ValveState) (acc acc' : PairResult),
      elephantScan g H min entries acc = some acc' →
      acc.2.2 ≤ acc'.2.2 ∧
        ∀ vs ∈ entries, vs.path.projected_flow g H ≤ acc'.2.2 := by
  intro entries
  induction entries with
  | nil =>
    intro acc acc' h
    simp [elephantScan, List.foldlM] at h
    subst h
    exact ⟨le_refl _, by simp⟩
  | cons e rest ih =>
    intro acc acc' h
    rw [elephantScan, List.foldlM_cons] at h
    simp only [Option.bind_eq_bind, Option.bind_eq_some] at h
    obtain ⟨acc1, hstep, hrest⟩ := h
    have hrest' : elephantScan g H min rest acc1 = some acc' := hrest
    obtain ⟨h1, h2⟩ := elephantStep_ge g H min acc e acc1 hstep
    obtain ⟨h3, h4⟩ := ih acc1 acc' hrest'
    refine ⟨le_trans h1 h3, ?_⟩
    intro vs hvs
    rcases List.mem_cons.mp hvs with hvs | hvs
    · subst hvs; exact le_trans h2 h3
    · exact h4 vs hvs

theorem elephantOuter_ge (g : Network) (H : Nat) :
    ∀ (fuel min : Nat) (st : List (Option ValveState)) (acc res : PairResult)
      (stF : List (Option ValveState)),
      1 ≤ fuel →
      elephantOuter g H fuel min st acc = some res →
      runSim g H fuel st = some stF →
      ∀ vs ∈ stF.filterMap id, vs.path.projected_flow g H ≤ res.2.2 := by
  intro fuel
  induction fuel with
  | zero => intro min st acc res stF hf; omega
  | succ f ih =>
    intro min st acc res stF _ houter hrun
    rw [elephantOuter] at houter
    simp only [Option.bind_eq_bind, Option.bind_eq_some] at houter
    obtain ⟨st', hsim, acc', hscan, hrec⟩ := houter
    rw [runSim, hsim, Option.some_bind] at hrun
    cases f with
    | zero =>
      simp only [elephantOuter, Option.some_inj] at hrec
      simp only [runSim, Option.some_inj] at hrun
      rw [← hrec, ← hrun]
      exact (elephantScan_ge g H min (st'.filterMap id) acc acc' hscan).2
    | succ f' =>
      exact ih (min + 1) st' acc' res stF (by omega) hrec hrun

theorem filterMap_id_replicate_none :
    ∀ k : Nat, (List.replicate k (none : Option ValveState)).filterMap id = [] := by
  intro k
  induction k with
  | zero => rfl
  | succ j ih => rw [List.replicate_succ, List.filterMap_cons]; exact ih

theorem total_flow_new_elephant (g : Network) :
    PathState.new_elephant.total_flow g = 0 := by
  show (PathState.flowAux g (List.replicate 4 .Wait) (0, 0)).2 = 0
  rw [flowAux_replicate_wait]

/-- Amended C8.  The dual-agent result is at least the *delayed*
single-agent result: `solve_pair(g, H) ≥ solve_delayed(g, H)`, where
the comparison agent carries the same four-wait scheduling delay as
each member of the pair.  (The stated inequality against the undelayed
`solve` fails: see the counterexample.) -/
theorem solve_pair_ge_delayed (g : Network) (H : Nat) (m d : Nat)
    (hm : find_path_elephant g H = some m)
    (hd : find_path_solo_delayed g H = some d) : d ≤ m := by
  simp only [find_path_elephant, Option.map_eq_some'] at hm
  obtain ⟨res, hfull, rfl⟩ := hm
  simp only [find_path_solo_delayed, Option.bind_eq_bind, Option.bind_eq_some,
    Option.map_eq_some'] at hd
  obtain ⟨stF, hrun, w, hbest, rfl⟩ := hd
  obtain ⟨l₁, l₂, hsplit, -, -⟩ := soloBest_spec g stF w hbest
  have hmem : w ∈ stF.filterMap id := by
    rw [hsplit]
    exact List.mem_append.mpr (Or.inr (List.mem_cons_self _ _))
  rw [find_path_elephant_full] at hfull
  cases hfuel : H - 4 with
  | zero =>
    rw [hfuel] at hfull
    simp only [elephantOuter, Option.some_inj] at hfull
    rw [hfuel] at hrun
    simp only [runSim, Option.some_inj] at hrun
    subst hrun
    subst hfull
    cases hn : g.nodes.length with
    | zero =>
      exfalso
      have : initStateWith g PathState.new_elephant = [] := by
        simp [initStateWith, hn]
      rw [this] at hmem
      simp at hmem
    | succ k =>
      have hinit : initStateWith g PathState.new_elephant =
          some (ValveState.new PathState.new_elephant) ::
            List.replicate k (none : Option ValveState) := by
        simp [initStateWith, hn, List.replicate_succ]
      rw [hinit, List.filterMap_cons] at hmem
      simp only [id] at hmem
      rw [filterMap_id_replicate_none] at hmem
      have hw : w = ValveState.new PathState.new_elephant := by
        rcases List.mem_cons.mp hmem with h | h
        · exact h
        · simp at h
      subst hw
      simp [ValveState.new, total_flow_new_elephant]
  | succ f =>
    rw [hfuel] at hfull
    rw [hfuel] at hrun
    have hb := elephantOuter_ge g H (f + 1) 4 (initStateWith g PathState.new_elephant)
      (PathState.new_elephant, PathState.new_elephant, 0) res stF (by omega) hfull hrun
    exact le_trans (PathState.projected_ge_total w.path g H) (hb w hmem)

/-- Witness for the amended C8 on the line fixture at horizon 8. -/
theorem solve_pair_ge_delayed_witness :
    ∃ m d, find_path_elephant lineG 8 = some m ∧
      find_path_solo_delayed lineG 8 = some d ∧ d ≤ m := by
  have hm : (find_path_elephant lineG 8).isSome = true := by decide
  have hd : (find_path_solo_delayed lineG 8).isSome = true := by decide
  obtain ⟨m, hm⟩ := Option.isSome_iff_exists.mp hm
  obtain ⟨d, hd⟩ := Option.isSome_iff_exists.mp hd
  exact ⟨m, d, hm, hd, solve_pair_ge_delayed lineG 8 m d hm hd⟩

/-! ## Frontier invariant: the machinery behind C1 and C6

The relaxation maintains, for every frontier produced from a seeded
start state on a well-formed graph:
* every path has exactly `t` elapsed minutes after `t` steps;
* every opened id is the stored id of an existing node whose rate is
  strictly positive (a zero-rate valve is never opened: the Phase A
  best branch checks the rate, and a zero-rate alternative activation
  never strictly beats the chosen best);
* every queued alternative has not opened its node and its projected
  flow does not exceed the node's best path's.
The last point is what makes the `with_open` assertion unreachable in
Phase A, and the second point is what makes the dual-agent pair
disjoint (the inner search runs on a graph whose rates are zeroed at
every node the first agent opened). -/

/-- `vid` is literally the stored id of an existing node of `g`. -/
def Network.NodeRef (g : Network) (vid : ValveId) : Prop :=
  ∃ j v, vid.id = some j ∧ g.node j = some v ∧ v.id = vid

/-- Path invariant at time `t`. -/
def GoodPath (g : Network) (t : Nat) (p : PathState) : Prop :=
  p.minutes = t ∧ ∀ vid ∈ p.opened, g.NodeRef vid ∧ 0 < g.rateAt vid.numeric

/-- Entry invariant at node index `i`. -/
def GoodEntry (g : Network) (H t i : Nat) (vs : ValveState) : Prop :=
  GoodPath g t vs.path ∧
  ∀ alt ∈ vs.alternatives, GoodPath g t alt ∧ alt.is_open i = false ∧
    alt.projected_flow g H ≤ vs.path.projected_flow g H

/-- Entry invariant over a (partial) frontier. -/
def InvAt (g : Network) (H t : Nat) (st : List (Option ValveState)) : Prop :=
  ∀ i vs, st.getD i none = some vs → GoodEntry g H t i vs

/-- Full frontier invariant: correct length and entry invariant. -/
def Inv (g : Network) (H t : Nat) (st : List (Option ValveState)) : Prop :=
  st.length = g.nodes.length ∧ InvAt g H t st

theorem wfFrom_get (g : Network) :
    ∀ (l : List Valve) (n : Nat), g.wfFrom n l = true →
      ∀ (k : Nat) (v : Valve), l[k]? = some v → g.wfAt (n + k) v = true := by
  intro l
  induction l with
  | nil => intro n _ k v h; simp at h
  | cons x rest ih =>
    intro n hwf k v h
    rw [Network.wfFrom, Bool.and_eq_true] at hwf
    cases k with
    | zero =>
      simp only [List.getElem?_cons_zero, Option.some_inj] at h
      subst h
      exact hwf.1
    | succ j =>
      simp only [List.getElem?_cons_succ] at h
      have := ih (n + 1) hwf.2 j v h
      rwa [show n + 1 + j = n + (j + 1) by omega] at this

theorem wf_node {g : Network} (hwf : g.wf = true) {i : Nat} {v : Valve}
    (h : g.node i = some v) : g.wfAt i v = true := by
  have : g.nodes[i]? = some v := by
    rw [← List.get?_eq_getElem?]
    exact h
  simpa using wfFrom_get g g.nodes 0 hwf i v this

theorem wfAt_id {g : Network} {i : Nat} {v : Valve} (h : g.wfAt i v = true) :
    v.id.id = some i := by
  rw [Network.wfAt, Bool.and_eq_true] at h
  simpa using h.1

theorem wfAt_neighbour {g : Network} {i : Nat} {v : Valve} (h : g.wfAt i v = true)
    {nb : ValveId} (hnb : nb ∈ v.neighbours) :
    ∃ j w, nb.id = some j ∧ g.node j = some w ∧ w.id.label = nb.label := by
  rw [Network.wfAt, Bool.and_eq_true, List.all_eq_true] at h
  have hx := h.2 nb hnb
  cases hid : nb.id with
  | none => rw [hid] at hx; simp at hx
  | some j =>
    rw [hid] at hx
    dsimp only at hx
    cases hw : g.node j with
    | none => rw [hw] at hx; simp at hx
    | some w =>
      rw [hw] at hx
      dsimp only at hx
      simp only [beq_iff_eq] at hx
      exact ⟨j, w, rfl, hw, hx⟩

theorem numeric_of_some {vid : ValveId} {j : Nat} (hid : vid.id = some j) :
    vid.numeric = j := by
  simp [ValveId.numeric, hid]

/-- Bridge between the numeric `is_open` check and the label-based
`contains` check: when the opened ids are real node ids and the
neighbour reference is resolved (well-formed graph), an `is_open` hit
at the neighbour's numeric index forces a label hit. -/
theorem is_open_imp_contains {g : Network} (hwf : g.wf = true) {p : PathState}
    (hids : ∀ vid ∈ p.opened, g.NodeRef vid) {i : Nat} {v : Valve} {nb : ValveId}
    (hnode : g.node i = some v) (hnb : nb ∈ v.neighbours)
    (hopen : p.is_open nb.numeric = true) : p.opened.contains nb = true := by
  rw [PathState.is_open, List.any_eq_true] at hopen
  obtain ⟨vid, hmem, hnum⟩ := hopen
  rw [beq_iff_eq] at hnum
  obtain ⟨j, w, hvidid, hnodej, hwid⟩ := hids vid hmem
  obtain ⟨j₀, w₀, hnbid, hnodej₀, hlbl⟩ := wfAt_neighbour (wf_node hwf hnode) hnb
  have hjj : j = j₀ := by
    rw [numeric_of_some hvidid, numeric_of_some hnbid] at hnum
    exact hnum
  subst hjj
  rw [hnodej] at hnodej₀
  cases hnodej₀
  rw [List.contains_eq_any_beq]
  refine List.any_eq_true.mpr ⟨vid, hmem, ?_⟩
  show decide (nb.label = vid.label) = true
  rw [hwid] at hlbl
  simp [hlbl]

theorem nodeD_of_node {g : Network} {i : Nat} {v : Valve} (h : g.node i = some v) :
    g.nodeD i = v := by
  simp [Network.nodeD, h]

theorem rateAt_of_node {g : Network} {i : Nat} {v : Valve} (h : g.node i = some v) :
    g.rateAt i = v.rate := by
  simp [Network.rateAt, h]

theorem GoodPath_wait {g : Network} {t : Nat} {p : PathState} (hp : GoodPath g t p) :
    GoodPath g (t + 1) p.with_wait :=
  ⟨by rw [PathState.minutes_wait, hp.1], by rw [PathState.opened_wait]; exact hp.2⟩

theorem GoodPath_move {g : Network} {t : Nat} {p : PathState} (nb : ValveId)
    (hp : GoodPath g t p) : GoodPath g (t + 1) (p.with_move nb) :=
  ⟨by rw [PathState.minutes_move, hp.1], by rw [PathState.opened_move]; exact hp.2⟩

theorem GoodPath_openPush {g : Network} {t : Nat} {p : PathState} (hp : GoodPath g t p)
    {i : Nat} {v : Valve} (hnode : g.node i = some v) (hid : v.id.id = some i)
    (hrate : 0 < v.rate) :
    GoodPath g (t + 1) ⟨p.actions ++ [.Open v.id]⟩ := by
  constructor
  · rw [PathState.minutes_openPush, hp.1]
  · intro vid hvid
    rw [PathState.opened_openPush] at hvid
    rcases List.mem_append.mp hvid with h | h
    · exact hp.2 vid h
    · simp only [List.mem_singleton] at h
      subst h
      refine ⟨⟨i, v, hid, hnode, rfl⟩, ?_⟩
      rw [numeric_of_some hid, rateAt_of_node hnode]
      exact hrate

theorem phaseA_fold_inv {g : Network} {H t i : Nat}
    {v : Valve} (hnode : g.node i = some v) (hid : v.id.id = some i)
    {base : PathState} :
    ∀ (alts : List PathState) (b : PathState),
      (∀ alt ∈ alts, GoodPath g t alt ∧ alt.is_open i = false ∧
        alt.projected_flow g H ≤ base.projected_flow g H) →
      t < H →
      GoodPath g (t + 1) b → base.projected_flow g H ≤ b.projected_flow g H →
      ∃ bp, alts.foldlM (chooseOpen g H v) b = some bp ∧ GoodPath g (t + 1) bp ∧
        base.projected_flow g H ≤ bp.projected_flow g H := by
  intro alts
  induction alts with
  | nil => intro b _ _ hb hpb; exact ⟨b, rfl, hb, hpb⟩
  | cons alt rest ih =>
    intro b halts ht hb hpb
    obtain ⟨hgoodalt, hioalt, hprojalt⟩ := halts alt (List.mem_cons_self _ _)
    have hio : alt.is_open v.id.numeric = false := by
      rw [numeric_of_some hid]; exact hioalt
    have hwo : alt.with_open v = some ⟨alt.actions ++ [.Open v.id]⟩ := by
      rw [PathState.with_open, hio]
      simp
    have hproj_wo : (⟨alt.actions ++ [.Open v.id]⟩ : PathState).projected_flow g H =
        alt.projected_flow g H + (H - alt.minutes - 1) * v.rate := by
      rw [PathState.projected_openPush alt g H v.id (by rw [hgoodalt.1]; exact ht),
        numeric_of_some hid, rateAt_of_node hnode]
    have hchoose : chooseOpen g H v b alt =
        some (if (⟨alt.actions ++ [.Open v.id]⟩ : PathState).projected_flow g H >
                b.projected_flow g H
              then ⟨alt.actions ++ [.Open v.id]⟩ else b) := by
      simp [chooseOpen, hwo]
    have hstep : List.foldlM (chooseOpen g H v) b (alt :: rest) =
        List.foldlM (chooseOpen g H v)
          (if (⟨alt.actions ++ [.Open v.id]⟩ : PathState).projected_flow g H >
              b.projected_flow g H
           then ⟨alt.actions ++ [.Open v.id]⟩ else b) rest := by
      rw [List.foldlM_cons, hchoose]
      rfl
    rw [hstep]
    by_cases hgt : (⟨alt.actions ++ [.Open v.id]⟩ : PathState).projected_flow g H >
        b.projected_flow g H
    · rw [if_pos hgt]
      have hrate : 0 < v.rate := by
        by_contra h0
        have hr0 : v.rate = 0 := by omega
        rw [hr0, Nat.mul_zero, Nat.add_zero] at hproj_wo
        omega
      exact ih ⟨alt.actions ++ [.Open v.id]⟩
        (fun a ha => halts a (List.mem_cons_of_mem _ ha))
        ht (GoodPath_openPush hgoodalt hnode hid hrate) (by omega)
    · rw [if_neg hgt]
      exact ih b (fun a ha => halts a (List.mem_cons_of_mem _ ha)) ht hb hpb

theorem phaseABest_inv {g : Network} (hwf : g.wf = true) {H t i : Nat} {vs : ValveState}
    {v : Valve} (hnode : g.node i = some v) (hent : GoodEntry g H t i vs) (ht : t < H) :
    ∃ bp, phaseABest g H i vs = some bp ∧ GoodPath g (t + 1) bp := by
  have hid : v.id.id = some i := wfAt_id (wf_node hwf hnode)
  have hD : g.nodeD i = v := nodeD_of_node hnode
  have hmin : vs.path.minutes = t := hent.1.1
  by_cases hc : ¬ vs.path.is_open i ∧ v.rate > 0
  · have hgood : GoodPath g (t + 1) ⟨vs.path.actions ++ [.Open v.id]⟩ :=
      GoodPath_openPush hent.1 hnode hid hc.2
    have hproj : vs.path.projected_flow g H ≤
        (⟨vs.path.actions ++ [.Open v.id]⟩ : PathState).projected_flow g H := by
      rw [PathState.projected_openPush vs.path g H v.id (by rw [hmin]; exact ht)]
      omega
    obtain ⟨bp, hfold, hgbp, -⟩ := phaseA_fold_inv hnode hid vs.alternatives _
      (fun alt ha => hent.2 alt ha) ht hgood hproj
    refine ⟨bp, ?_, hgbp⟩
    have hopen : vs.path.with_open v = some ⟨vs.path.actions ++ [.Open v.id]⟩ := by
      rw [PathState.with_open]
      rw [numeric_of_some hid, Bool.eq_false_iff.mpr hc.1]
      simp
    rw [phaseABest, hD, if_pos hc, hopen]
    exact hfold
  · have hgood : GoodPath g (t + 1) vs.path.with_wait := GoodPath_wait hent.1
    have hproj : vs.path.projected_flow g H ≤ vs.path.with_wait.projected_flow g H := by
      rw [PathState.projected_wait vs.path g H (by rw [hmin]; exact ht)]
    obtain ⟨bp, hfold, hgbp, -⟩ := phaseA_fold_inv hnode hid vs.alternatives _
      (fun alt ha => hent.2 alt ha) ht hgood hproj
    refine ⟨bp, ?_, hgbp⟩
    rw [phaseABest, hD, if_neg hc]
    exact hfold

theorem getD_set {α : Type} (l : List (Option α)) (i j : Nat) (x : Option α) :
    (l.set i x).getD j none = if i = j ∧ i < l.length then x else l.getD j none := by
  by_cases hij : i = j
  · subst hij
    by_cases hlt : i < l.length
    · rw [if_pos ⟨rfl, hlt⟩]
      exact getD_set_self x hlt
    · rw [if_neg (by omega)]
      have h1 : (l.set i x)[i]? = none :=
        List.getElem?_eq_none_iff.mpr (by simp; omega)
      have h2 : l[i]? = none := List.getElem?_eq_none_iff.mpr (by omega)
      simp [List.getD, h1, h2]
  · rw [if_neg (by tauto)]
    exact getD_set_ne x hij

theorem getD_nil_none {α : Type} (k : Nat) :
    (([] : List (Option α)).getD k none) = none := by
  simp [List.getD]

theorem getD_replicate_none {α : Type} (k j : Nat) :
    ((List.replicate k (none : Option α)).getD j none) = none := by
  cases hlt : (List.replicate k (none : Option α))[j]? with
  | none => simp [List.getD, hlt]
  | some x =>
    have := List.getElem?_mem hlt
    rw [List.eq_of_mem_replicate this] at hlt
    simp [List.getD, hlt]

theorem phaseAAux_inv {g : Network} (hwf : g.wf = true) {H t : Nat} (ht : t < H) :
    ∀ (st : List (Option ValveState)) (n : Nat),
      (∀ k vs, st.getD k none = some vs →
        GoodEntry g H t (n + k) vs ∧ ∃ v, g.node (n + k) = some v) →
      ∃ out, phaseAAux g H n st = some out ∧ out.length = st.length ∧
        ∀ k vs, out.getD k none = some vs → GoodEntry g H (t + 1) (n + k) vs := by
  intro st
  induction st with
  | nil =>
    intro n _
    refine ⟨[], rfl, rfl, ?_⟩
    intro k vs h
    rw [getD_nil_none] at h
    exact absurd h (by simp)
  | cons x rest ih =>
    intro n hst
    have hshift : ∀ k vs, rest.getD k none = some vs →
        GoodEntry g H t (n + 1 + k) vs ∧ ∃ v, g.node (n + 1 + k) = some v := by
      intro k vs h
      have := hst (k + 1) vs (by rwa [List.getD_cons_succ])
      rwa [show n + (k + 1) = n + 1 + k by omega] at this
    obtain ⟨out, hout, hlen, hiv⟩ := ih (n + 1) hshift
    cases x with
    | none =>
      refine ⟨none :: out, ?_, by simp [hlen], ?_⟩
      · rw [phaseAAux, hout]
        rfl
      · intro k vs h
        cases k with
        | zero => rw [List.getD_cons_zero] at h; exact absurd h (by simp)
        | succ j =>
          rw [List.getD_cons_succ] at h
          have := hiv j vs h
          rwa [show n + 1 + j = n + (j + 1) by omega] at this
    | some vs₀ =>
      obtain ⟨hent, v, hnode⟩ := hst 0 vs₀ (by rw [List.getD_cons_zero])
      rw [Nat.add_zero] at hent hnode
      obtain ⟨bp, hbp, hgbp⟩ := phaseABest_inv hwf hnode hent ht
      refine ⟨some (ValveState.new bp) :: out, ?_, by simp [hlen], ?_⟩
      · rw [phaseAAux, hbp, hout]
        rfl
      · intro k vs h
        cases k with
        | zero =>
          rw [List.getD_cons_zero] at h
          cases h
          rw [Nat.add_zero]
          exact ⟨hgbp, by intro alt ha; exact absurd ha (by simp [ValveState.new])⟩
        | succ j =>
          rw [List.getD_cons_succ] at h
          have := hiv j vs h
          rwa [show n + 1 + j = n + (j + 1) by omega] at this

theorem phaseBUpdate_inv {g : Network} (hwf : g.wf = true) {H t : Nat} {src : Nat}
    {v : Valve} (hnode : g.node src = some v) {nb : ValveId} (hnb : nb ∈ v.neighbours)
    {moved : PathState} (hmoved : GoodPath g (t + 1) moved)
    {cur : List (Option ValveState)} (hcur : InvAt g H (t + 1) cur) :
    InvAt g H (t + 1) (phaseBUpdate g H cur moved nb) := by
  intro i vs hvs
  unfold phaseBUpdate at hvs
  dsimp only at hvs
  cases hidx : cur.getD nb.numeric none with
  | none =>
    rw [hidx] at hvs
    dsimp only at hvs
    rw [getD_set] at hvs
    by_cases hcc : nb.numeric = i ∧ nb.numeric < cur.length
    · rw [if_pos hcc] at hvs
      cases hvs
      exact ⟨hmoved, by intro alt ha; exact absurd ha (by simp [ValveState.new])⟩
    · rw [if_neg hcc] at hvs
      exact hcur i vs hvs
  | some ns =>
    rw [hidx] at hvs
    dsimp only at hvs
    have hentry := hcur nb.numeric ns hidx
    by_cases hgt : moved.projected_flow g H > ns.path.projected_flow g H
    · rw [if_pos hgt, getD_set] at hvs
      by_cases hcc : nb.numeric = i ∧ nb.numeric < cur.length
      · rw [if_pos hcc] at hvs
        cases hvs
        obtain ⟨rfl, -⟩ := hcc
        refine ⟨hmoved, ?_⟩
        intro alt ha
        obtain ⟨h1, h2, h3⟩ := hentry.2 alt ha
        exact ⟨h1, h2, le_trans h3 (le_of_lt hgt)⟩
      · rw [if_neg hcc] at hvs
        exact hcur i vs hvs
    · rw [if_neg hgt] at hvs
      by_cases hcont : moved.opened.contains nb
      · rw [if_neg (by simp [hcont])] at hvs
        exact hcur i vs hvs
      · rw [if_pos (by simp [hcont]), getD_set] at hvs
        by_cases hcc : nb.numeric = i ∧ nb.numeric < cur.length
        · rw [if_pos hcc] at hvs
          cases hvs
          obtain ⟨rfl, -⟩ := hcc
          refine ⟨hentry.1, ?_⟩
          intro alt ha
          rcases List.mem_append.mp ha with ha | ha
          · exact hentry.2 alt ha
          · simp only [List.mem_singleton] at ha
            subst ha
            refine ⟨hmoved, ?_, by dsimp only; omega⟩
            cases hio : alt.is_open nb.numeric with
            | false => rfl
            | true =>
              exact absurd (is_open_imp_contains hwf
                (fun vid hv => (hmoved.2 vid hv).1) hnode hnb hio) (by simp [hcont])
        · rw [if_neg hcc] at hvs
          exact hcur i vs hvs

theorem phaseBList_inv {g : Network} (hwf : g.wf = true) {H t : Nat} {src : Nat}
    {v : Valve} (hnode : g.node src = some v) {p : PathState} (hp : GoodPath g t p) :
    ∀ (nbs : List ValveId), (∀ nb ∈ nbs, nb ∈ v.neighbours) →
      ∀ (cur : List (Option ValveState)), InvAt g H (t + 1) cur →
      InvAt g H (t + 1)
        (nbs.foldl (fun c nId => phaseBUpdate g H c (p.with_move nId) nId) cur) := by
  intro nbs
  induction nbs with
  | nil => intro _ cur hcur; exact hcur
  | cons nb rest ih =>
    intro hsub cur hcur
    rw [List.foldl_cons]
    exact ih (fun x hx => hsub x (List.mem_cons_of_mem _ hx)) _
      (phaseBUpdate_inv hwf hnode (hsub nb (List.mem_cons_self _ _))
        (GoodPath_move nb hp) hcur)

theorem phaseBAux_inv {g : Network} (hwf : g.wf = true) {H t : Nat} :
    ∀ (src : List (Option ValveState)) (n : Nat),
      (∀ k vs, src.getD k none = some vs →
        GoodPath g t vs.path ∧ ∃ v, g.node (n + k) = some v) →
      ∀ cur, InvAt g H (t + 1) cur →
      InvAt g H (t + 1) (phaseBAux g H n src cur) := by
  intro src
  induction src with
  | nil => intro n _ cur hcur; exact hcur
  | cons x rest ih =>
    intro n hsrc cur hcur
    have hshift : ∀ k vs, rest.getD k none = some vs →
        GoodPath g t vs.path ∧ ∃ v, g.node (n + 1 + k) = some v := by
      intro k vs h
      have := hsrc (k + 1) vs (by rwa [List.getD_cons_succ])
      rwa [show n + (k + 1) = n + 1 + k by omega] at this
    cases x with
    | none => exact ih (n + 1) hshift cur hcur
    | some vs₀ =>
      obtain ⟨hgood, v, hnode⟩ := hsrc 0 vs₀ (by rw [List.getD_cons_zero])
      rw [Nat.add_zero] at hnode
      show InvAt g H (t + 1) (phaseBAux g H (n + 1) rest (phaseBMoves g H n vs₀ cur))
      refine ih (n + 1) hshift _ ?_
      have hD : g.nodeD n = v := nodeD_of_node hnode
      rw [phaseBMoves, hD]
      exact phaseBList_inv hwf hnode hgood v.neighbours (fun _ h => h) cur hcur

theorem phaseBUpdate_length (g : Network) (H : Nat) (cur : List (Option ValveState))
    (moved : PathState) (nb : ValveId) :
    (phaseBUpdate g H cur moved nb).length = cur.length := by
  unfold phaseBUpdate
  dsimp only
  cases cur.getD nb.numeric none with
  | none => simp
  | some ns =>
    dsimp only
    by_cases hgt : moved.projected_flow g H > ns.path.projected_flow g H
    · rw [if_pos hgt]; simp
    · rw [if_neg hgt]
      by_cases hcont : moved.opened.contains nb
      · rw [if_neg (by simp [hcont])]
      · rw [if_pos (by simp [hcont])]; simp

theorem phaseBList_length (g : Network) (H : Nat) (p : PathState) :
    ∀ (nbs : List ValveId) (cur : List (Option ValveState)),
      ((nbs.foldl (fun c nId => phaseBUpdate g H c (p.with_move nId) nId) cur)).length =
        cur.length
  | [], cur => rfl
  | nb :: rest, cur => by
    rw [List.foldl_cons]
    rw [phaseBList_length g H p rest _]
    exact phaseBUpdate_length g H cur _ nb

theorem phaseBAux_length (g : Network) (H : Nat) :
    ∀ (src : List (Option ValveState)) (n : Nat) (cur : List (Option ValveState)),
      (phaseBAux g H n src cur).length = cur.length
  | [], _, _ => rfl
  | none :: rest, n, cur => phaseBAux_length g H rest (n + 1) cur
  | some vs :: rest, n, cur => by
    show (phaseBAux g H (n + 1) rest (phaseBMoves g H n vs cur)).length = cur.length
    rw [phaseBAux_length g H rest (n + 1) _]
    exact phaseBList_length g H vs.path (g.nodeD n).neighbours cur

/-- One relaxation step on a well-formed graph cannot fail, and it
preserves the frontier invariant one minute later. -/
theorem simulate_step_inv {g : Network} (hwf : g.wf = true) {H t : Nat}
    {st : List (Option ValveState)} (hinv : Inv g H t st) (ht : t < H) :
    ∃ st', simulate_step g H st = some st' ∧ Inv g H (t + 1) st' := by
  obtain ⟨hlen, hat⟩ := hinv
  have hnodes : ∀ k vs, st.getD k none = some vs →
      GoodEntry g H t (0 + k) vs ∧ ∃ v, g.node (0 + k) = some v := by
    intro k vs h
    have hk : k < st.length := getD_none_lt_length h
    rw [Nat.zero_add]
    refine ⟨hat k vs h, g.nodes[k], ?_⟩
    show g.nodes.get? k = _
    rw [List.get?_eq_getElem?]
    exact List.getElem?_eq_getElem (by omega)
  obtain ⟨mid, hmid, hmidlen, hmident⟩ := phaseAAux_inv hwf ht st 0 hnodes
  have hmidat : InvAt g H (t + 1) mid := by
    intro i vs h
    have := hmident i vs h
    rwa [Nat.zero_add] at this
  have hsrc : ∀ k vs, st.getD k none = some vs →
      GoodPath g t vs.path ∧ ∃ v, g.node (0 + k) = some v := by
    intro k vs h
    exact ⟨(hat k vs h).1, (hnodes k vs h).2⟩
  refine ⟨phaseBAux g H 0 st mid, ?_, ?_, phaseBAux_inv hwf st 0 hsrc mid hmidat⟩
  · rw [simulate_step, hmid]
    rfl
  · rw [phaseBAux_length, hmidlen, hlen]

/-- Running several steps preserves the invariant (conditioned on the
run having succeeded). -/
theorem runSim_inv {g : Network} (hwf : g.wf = true) {H : Nat} :
    ∀ (k t : Nat) (st st' : List (Option ValveState)), Inv g H t st → t + k ≤ H →
      runSim g H k st = some st' → Inv g H (t + k) st' := by
  intro k
  induction k with
  | zero =>
    intro t st st' hinv _ h
    simp only [runSim, Option.some_inj] at h
    subst h
    exact hinv
  | succ j ih =>
    intro t st st' hinv hle h
    rw [runSim] at h
    obtain ⟨st₁, hst₁, hrest⟩ := Option.bind_eq_some.mp h
    obtain ⟨st₁', hst₁', hinv₁⟩ := simulate_step_inv hwf hinv (by omega)
    rw [hst₁] at hst₁'
    cases hst₁'
    have := ih (t + 1) st₁ st' hinv₁ (by omega) hrest
    rwa [show t + 1 + j = t + (j + 1) by omega] at this

/-- The seeded initial frontier satisfies the invariant (the invariant
graph `g'` may differ from the sizing graph `g` as long as the lengths
agree, as for the dual-agent inner search on a zeroed clone). -/
theorem Inv_initStateWith {g' g : Network} {H : Nat} (p : PathState)
    (hop : p.opened = []) (hlen : g.nodes.length = g'.nodes.length) :
    Inv g' H p.minutes (initStateWith g p) := by
  constructor
  · simp [initStateWith, hlen]
  · intro i vs h
    rw [initStateWith] at h
    cases hn : g.nodes.length with
    | zero =>
      rw [hn] at h
      simp only [List.replicate_zero] at h
      rw [show (([] : List (Option ValveState)).set 0 (some (ValveState.new p))) = []
        from rfl, getD_nil_none] at h
      exact absurd h (by simp)
    | succ k =>
      rw [hn, List.replicate_succ] at h
      rw [show ((none :: List.replicate k (none : Option ValveState)).set 0
          (some (ValveState.new p))) =
          some (ValveState.new p) :: List.replicate k none from rfl] at h
      cases i with
      | zero =>
        rw [List.getD_cons_zero] at h
        cases h
        refine ⟨⟨rfl, ?_⟩, ?_⟩
        · intro vid hvid
          rw [show (ValveState.new p).path = p from rfl, hop] at hvid
          exact absurd hvid (by simp)
        · intro alt ha
          exact absurd ha (by simp [ValveState.new])
      | succ j =>
        rw [List.getD_cons_succ, getD_replicate_none] at h
        exact absurd h (by simp)

/-- C6. `with_open` signals the invariant violation instead of ignoring
it: it fails exactly when the valve is already open.  And under the
step relaxation the failure is unreachable: on a well-formed graph,
whenever the frontier satisfies the invariant the engine maintains
(Phase A's best branch checks `is_open` before activating, and every
queued alternative has, by construction, not opened its node),
`simulate_step` always succeeds. -/
theorem with_open_guard :
    (∀ (p : PathState) (v : Valve),
      p.with_open v = none ↔ p.is_open v.id.numeric = true) ∧
    (∀ (g : Network) (H t : Nat) (st : List (Option ValveState)),
      g.wf = true → Inv g H t st → t < H → (simulate_step g H st).isSome) := by
  constructor
  · intro p v
    rw [PathState.with_open]
    by_cases h : p.is_open v.id.numeric
    · simp [h]
    · simp [h]
  · intro g H t st hwf hinv ht
    obtain ⟨st', hst', -⟩ := simulate_step_inv hwf hinv ht
    rw [hst']
    rfl

/-- Witness for C6: a double activation fails on a concrete state, and
one relaxation step from the seeded frontier of the line fixture
succeeds. -/
theorem with_open_guard_witness :
    (PathState.with_open ⟨[.Open idB]⟩ ⟨idB, [idA, idC], 1⟩ = none) ∧
    (simulate_step lineG 6 (initStateWith lineG PathState.new)).isSome := by
  constructor
  · exact (with_open_guard.1 ⟨[.Open idB]⟩ ⟨idB, [idA, idC], 1⟩).mpr (by decide)
  · exact with_open_guard.2 lineG 6 PathState.new.minutes _ (by decide)
      (Inv_initStateWith PathState.new rfl rfl) (by decide)

/-! ## C1: the winning dual-agent pair opens disjoint valve sets -/

theorem node_zeroRate (g : Network) (i j : Nat) :
    (g.zeroRate i).node j =
      (g.node j).map (fun v => if j = i then { v with rate := 0 } else v) := by
  show (g.nodes.set i _).get? j = _
  rw [List.get?_eq_getElem?]
  by_cases hij : j = i
  · subst hij
    by_cases hlt : j < g.nodes.length
    · rw [List.getElem?_set_eq_of_lt _ hlt]
      have hnode : g.node j = some g.nodes[j] := by
        show g.nodes.get? j = _
        rw [List.get?_eq_getElem?]
        exact List.getElem?_eq_getElem (by omega)
      rw [hnode]
      have hgetD : g.nodes.getD j ⟨⟨none, (0, 0)⟩, [], 0⟩ = g.nodes[j] := by
        simp [List.getD, List.getElem?_eq_getElem hlt]
      rw [hgetD]
      simp
    · have h2 : g.node j = none := by
        show g.nodes.get? j = none
        rw [List.get?_eq_getElem?]
        exact List.getElem?_eq_none_iff.mpr (by omega)
      rw [h2]
      exact List.getElem?_eq_none_iff.mpr (by simp; omega)
  · rw [List.getElem?_set_ne (by omega)]
    show _ = (g.nodes.get? j).map _
    rw [List.get?_eq_getElem?]
    cases g.nodes[j]? with
    | none => rfl
    | some v => simp [hij]

theorem rateAt_zeroRate_self (g : Network) (i : Nat) : (g.zeroRate i).rateAt i = 0 := by
  rw [Network.rateAt, node_zeroRate]
  cases g.node i <;> simp

theorem rateAt_zeroRate_ne (g : Network) {i j : Nat} (h : j ≠ i) :
    (g.zeroRate i).rateAt j = g.rateAt j := by
  rw [Network.rateAt, Network.rateAt, node_zeroRate]
  cases g.node j <;> simp [h]

theorem rateAt_zeroRate_zero (g : Network) {i j : Nat} (h : g.rateAt j = 0) :
    (g.zeroRate i).rateAt j = 0 := by
  by_cases hij : j = i
  · subst hij; exact rateAt_zeroRate_self g j
  · rw [rateAt_zeroRate_ne g hij]; exact h

theorem zeroFold_keeps_zero :
    ∀ (l : List ValveId) (g : Network) (j : Nat), g.rateAt j = 0 →
      (l.foldl (fun gc vid => gc.zeroRate vid.numeric) g).rateAt j = 0
  | [], _, _, h => h
  | vid :: rest, g, j, h =>
    zeroFold_keeps_zero rest _ j (rateAt_zeroRate_zero g h)

theorem rateAt_zeroOpened_of_mem :
    ∀ (l : List ValveId) (g : Network) (vid : ValveId), vid ∈ l →
      (l.foldl (fun gc v => gc.zeroRate v.numeric) g).rateAt vid.numeric = 0 := by
  intro l
  induction l with
  | nil => intro g vid h; exact absurd h (by simp)
  | cons x rest ih =>
    intro g vid h
    rw [List.foldl_cons]
    rcases List.mem_cons.mp h with h | h
    · subst h
      exact zeroFold_keeps_zero rest _ _ (rateAt_zeroRate_self g _)
    · exact ih _ vid h

theorem rateAt_zeroOpened (g : Network) (p : PathState) {vid : ValveId}
    (h : vid ∈ p.opened) : (g.zeroOpened p).rateAt vid.numeric = 0 :=
  rateAt_zeroOpened_of_mem p.opened g vid h

theorem length_zeroRate (g : Network) (i : Nat) :
    (g.zeroRate i).nodes.length = g.nodes.length := by
  simp [Network.zeroRate]

theorem length_zeroFold :
    ∀ (l : List ValveId) (g : Network),
      ((l.foldl (fun gc vid => gc.zeroRate vid.numeric) g)).nodes.length =
        g.nodes.length
  | [], _ => rfl
  | vid :: rest, g => by
    rw [List.foldl_cons, length_zeroFold rest _, length_zeroRate]

theorem length_zeroOpened (g : Network) (p : PathState) :
    (g.zeroOpened p).nodes.length = g.nodes.length :=
  length_zeroFold p.opened g

theorem wfFrom_of_pointwise (g : Network) :
    ∀ (l : List Valve) (n : Nat),
      (∀ k v, l[k]? = some v → g.wfAt (n + k) v = true) → g.wfFrom n l = true
  | [], _, _ => rfl
  | x :: rest, n, h => by
    rw [Network.wfFrom, Bool.and_eq_true]
    refine ⟨by simpa using h 0 x (by simp), ?_⟩
    refine wfFrom_of_pointwise g rest (n + 1) ?_
    intro k v hk
    have := h (k + 1) v (by simpa using hk)
    rwa [show n + (k + 1) = n + 1 + k by omega] at this

theorem wf_of_pointwise {g : Network}
    (h : ∀ i v, g.node i = some v → g.wfAt i v = true) : g.wf = true := by
  refine wfFrom_of_pointwise g g.nodes 0 ?_
  intro k v hk
  rw [Nat.zero_add]
  refine h k v ?_
  show g.nodes.get? k = some v
  rw [List.get?_eq_getElem?]
  exact hk

theorem wfAt_zeroRate {g : Network} {iz k : Nat} {v' : Valve}
    (hv' : (g.zeroRate iz).node k = some v') (hwf : g.wf = true) :
    (g.zeroRate iz).wfAt k v' = true := by
  rw [node_zeroRate] at hv'
  cases hv : g.node k with
  | none => rw [hv] at hv'; simp at hv'
  | some v =>
    rw [hv] at hv'
    simp only [Option.map_some', Option.some_inj] at hv'
    have hAt := wf_node hwf hv
    have hid : v'.id = v.id := by
      rw [← hv']; by_cases h : k = iz <;> simp [h]
    have hnbs : v'.neighbours = v.neighbours := by
      rw [← hv']; by_cases h : k = iz <;> simp [h]
    rw [Network.wfAt, Bool.and_eq_true, List.all_eq_true] at hAt
    rw [Network.wfAt, Bool.and_eq_true]
    refine ⟨by rw [hid]; exact hAt.1, ?_⟩
    rw [List.all_eq_true]
    intro nb hnb
    rw [hnbs] at hnb
    have hx := hAt.2 nb hnb
    cases hnbid : nb.id with
    | none => rw [hnbid] at hx; simp at hx
    | some j =>
      rw [hnbid] at hx
      dsimp only at hx ⊢
      cases hw : g.node j with
      | none => rw [hw] at hx; simp at hx
      | some w =>
        rw [hw] at hx
        dsimp only at hx
        rw [node_zeroRate, hw]
        by_cases hj : j = iz <;> simp only [Option.map_some', hj, if_true, if_false,
          reduceIte] <;> exact hx

theorem wf_zeroRate {g : Network} (hwf : g.wf = true) (iz : Nat) :
    (g.zeroRate iz).wf = true :=
  wf_of_pointwise (fun _ _ hv' => wfAt_zeroRate hv' hwf)

theorem wf_zeroFold :
    ∀ (l : List ValveId) (g : Network), g.wf = true →
      ((l.foldl (fun gc vid => gc.zeroRate vid.numeric) g)).wf = true
  | [], _, h => h
  | vid :: rest, g, h => wf_zeroFold rest _ (wf_zeroRate h vid.numeric)

theorem wf_zeroOpened {g : Network} (hwf : g.wf = true) (p : PathState) :
    (g.zeroOpened p).wf = true :=
  wf_zeroFold p.opened g hwf

/-- The recorded pair never opens a common valve (by numeric index). -/
def DisjointPair (acc : PairResult) : Prop :=
  ∀ vh ∈ acc.1.opened, ∀ ve ∈ acc.2.1.opened, vh.numeric ≠ ve.numeric

theorem foldl_best_mem (f : ValveState → Nat) (l : List ValveState) (seed : ValveState) :
    l.foldl (fun b v => if f v > f b then v else b) seed ∈ seed :: l := by
  obtain ⟨l₁, l₂, heq, -, -⟩ := foldl_best_split f l seed
  rw [heq]
  exact List.mem_append.mpr (Or.inr (List.mem_cons_self _ _))

theorem mem_filterMap_getD {α : Type} {l : List (Option α)} {a : α}
    (h : a ∈ l.filterMap id) : ∃ i, l.getD i none = some a := by
  rw [List.mem_filterMap] at h
  obtain ⟨o, ho, hoa⟩ := h
  obtain ⟨i, hi⟩ := List.mem_iff_get?.mp ho
  refine ⟨i, ?_⟩
  rw [List.get?_eq_getElem?] at hi
  simp only [id] at hoa
  simp [List.getD, hi, hoa]

theorem opened_new_elephant : PathState.new_elephant.opened = [] := rfl

theorem elephantStep_disjoint {g : Network} (hwf : g.wf = true) {H min : Nat}
    (hmin : 4 ≤ min) (hminH : min < H) {acc acc1 : PairResult} {e : ValveState}
    (hdisj : DisjointPair acc) (h : elephantStep g H min acc e = some acc1) :
    DisjointPair acc1 := by
  unfold elephantStep at h
  simp only [Option.bind_eq_bind, Option.bind_eq_some] at h
  obtain ⟨est, hest, h⟩ := h
  have hinv0 : Inv (g.zeroOpened e.path) H PathState.new_elephant.minutes
      (initStateWith g PathState.new_elephant) :=
    Inv_initStateWith PathState.new_elephant rfl (length_zeroOpened g e.path).symm
  have hm4 : PathState.new_elephant.minutes = 4 := rfl
  rw [hm4] at hinv0
  have hinv : Inv (g.zeroOpened e.path) H (4 + (min + 1 - 4)) est :=
    runSim_inv (wf_zeroOpened hwf e.path) (min + 1 - 4) 4 _ est hinv0 (by omega) hest
  cases hseed : est.getD 0 none with
  | none => rw [hseed] at h; exact absurd h (by simp)
  | some seed =>
    rw [hseed] at h
    simp only [Option.pure_def, Option.some_inj] at h
    have hgoodall : ∀ vs ∈ seed :: est.filterMap id, ∀ ve ∈ vs.path.opened,
        0 < (g.zeroOpened e.path).rateAt ve.numeric := by
      intro vs hvs ve hve
      rcases List.mem_cons.mp hvs with hvs | hvs
      · subst hvs
        exact ((hinv.2 0 vs hseed).1.2 ve hve).2
      · obtain ⟨i, hi⟩ := mem_filterMap_getD hvs
        exact ((hinv.2 i vs hi).1.2 ve hve).2
    have hmem := foldl_best_mem
      (fun vs => vs.path.projected_flow g H) (est.filterMap id) seed
    by_cases hgt : ((est.filterMap id).foldl
        (fun best vs =>
          if vs.path.projected_flow g H > best.path.projected_flow g H then vs
          else best) seed).path.projected_flow g H + e.path.projected_flow g H >
        acc.2.2
    · rw [if_pos hgt] at h
      subst h
      intro vh hvh ve hve
      dsimp only at hvh hve ⊢
      have hz : (g.zeroOpened e.path).rateAt vh.numeric = 0 :=
        rateAt_zeroOpened g e.path hvh
      have hp : 0 < (g.zeroOpened e.path).rateAt ve.numeric :=
        hgoodall _ hmem ve hve
      intro hnum
      rw [hnum] at hz
      omega
    · rw [if_neg hgt] at h
      subst h
      exact hdisj

theorem elephantScan_disjoint {g : Network} (hwf : g.wf = true) {H min : Nat}
    (hmin : 4 ≤ min) (hminH : min < H) :
    ∀ (entries : List ValveState) (acc acc' : PairResult), DisjointPair acc →
      elephantScan g H min entries acc = some acc' → DisjointPair acc' := by
  intro entries
  induction entries with
  | nil =>
    intro acc acc' hd h
    simp [elephantScan, List.foldlM] at h
    subst h
    exact hd
  | cons e rest ih =>
    intro acc acc' hd h
    rw [elephantScan, List.foldlM_cons] at h
    simp only [Option.bind_eq_bind, Option.bind_eq_some] at h
    obtain ⟨acc1, hstep, hrest⟩ := h
    exact ih acc1 acc' (elephantStep_disjoint hwf hmin hminH hd hstep) hrest

theorem elephantOuter_disjoint {g : Network} (hwf : g.wf = true) {H : Nat} :
    ∀ (fuel min : Nat) (st : List (Option ValveState)) (acc res : PairResult),
      4 ≤ min → fuel + min ≤ H → DisjointPair acc →
      elephantOuter g H fuel min st acc = some res → DisjointPair res := by
  intro fuel
  induction fuel with
  | zero =>
    intro min st acc res _ _ hd h
    simp only [elephantOuter, Option.some_inj] at h
    subst h
    exact hd
  | succ f ih =>
    intro min st acc res hmin hle hd h
    rw [elephantOuter] at h
    simp only [Option.bind_eq_bind, Option.bind_eq_some] at h
    obtain ⟨st', _, acc', hscan, hrec⟩ := h
    exact ih (min + 1) st' acc' res (by omega) (by omega)
      (elephantScan_disjoint hwf hmin (by omega) _ acc acc' hd hscan) hrec

/-- C1. The winning pair recorded by the dual-agent search opens
disjoint valve sets: the second agent's search runs on a clone whose
rates are zeroed at every valve the first agent opened, and on a
well-formed graph the relaxation never opens a zero-rate valve, so no
valve index is opened by both recorded paths. -/
theorem solve_pair_disjoint (g : Network) (H : Nat) (hwf : g.wf = true)
    (hb eb : PathState) (mf : Nat)
    (h : find_path_elephant_full g H = some (hb, eb, mf)) :
    ∀ vh ∈ hb.opened, ∀ ve ∈ eb.opened, vh.numeric ≠ ve.numeric := by
  rw [find_path_elephant_full] at h
  have hd0 : DisjointPair (PathState.new_elephant, PathState.new_elephant, 0) := by
    intro vh hvh
    rw [show (PathState.new_elephant, PathState.new_elephant,
      (0 : Nat)).1 = PathState.new_elephant from rfl, opened_new_elephant] at hvh
    exact absurd hvh (by simp)
  by_cases h4 : 4 ≤ H
  · have := elephantOuter_disjoint hwf (H - 4) 4 _ _ _ (le_refl 4) (by omega) hd0 h
    exact this
  · have hf : H - 4 = 0 := by omega
    rw [hf] at h
    simp only [elephantOuter, Option.some_inj] at h
    obtain ⟨rfl, rfl, -⟩ := Prod.mk.injEq .. ▸ h
    intro vh hvh
    rw [opened_new_elephant] at hvh
    exact absurd hvh (by simp)

/-- Witness for C1 on the line fixture at horizon 8. -/
theorem solve_pair_disjoint_witness :
    lineG.wf = true ∧
    ∃ hb eb mf, find_path_elephant_full lineG 8 = some (hb, eb, mf) ∧
      ∀ vh ∈ hb.opened, ∀ ve ∈ eb.opened, vh.numeric ≠ ve.numeric := by
  refine ⟨by decide, ?_⟩
  have h : (find_path_elephant_full lineG 8).isSome = true := by decide
  obtain ⟨res, hres⟩ := Option.isSome_iff_exists.mp h
  obtain ⟨hb, eb, mf⟩ := res
  exact ⟨hb, eb, mf, hres, solve_pair_disjoint lineG 8 (by decide) hb eb mf hres⟩

/-! ## C5: parsing and graph construction (`Valve::from_str`, `Network::build`)

Strings are modelled as `List Char` (`String.data`); `anyhow` context
errors are `Except.error` with the source's message, panics are `none`. -/

/-- Rust `char::is_ascii_whitespace`. -/
def isAsciiWhitespace (c : Char) : Bool :=
  c = ' ' ∨ c = '\t' ∨ c = '\n' ∨ c = '\x0c' ∨ c = '\r'

/-- `str::split_once(sep)`: split at the first occurrence of `sep`. -/
def splitOnceChar (sep : Char) : List Char → Option (List Char × List Char)
  | [] => none
  | c :: rest =>
    if c = sep then some ([], rest)
    else (splitOnceChar sep rest).map fun p => (c :: p.1, p.2)

/-- Accumulator pass of `str::split_ascii_whitespace`. -/
def splitWsAux : List Char → List Char → List (List Char)
  | [], acc => if acc.isEmpty then [] else [acc.reverse]
  | c :: rest, acc =>
    if isAsciiWhitespace c then
      if acc.isEmpty then splitWsAux rest []
      else acc.reverse :: splitWsAux rest []
    else splitWsAux rest (c :: acc)

/-- `str::split_ascii_whitespace`: maximal non-whitespace words. -/
def splitWs (s : List Char) : List (List Char) :=
  splitWsAux s []

/-- Raw split at newline characters. -/
def splitNl : List Char → List (List Char)
  | [] => [[]]
  | c :: rest =>
    if c = '\n' then [] :: splitNl rest
    else
      match splitNl rest with
      | l :: ls => (c :: l) :: ls
      | [] => [[c]]

/-- Strip one trailing carriage return. -/
def stripCR (l : List Char) : List Char :=
  if l.getLast? = some '\r' then l.dropLast else l

/-- `str::lines`: newline-terminated segments (no trailing empty line),
each with a trailing `\r` removed. -/
def rustLines (s : List Char) : List (List Char) :=
  let segs := splitNl s
  let segs :=
    match segs.getLast? with
    | some [] => segs.dropLast
    | _ => segs
  segs.map stripCR

/-- Rust `u32::from_str`: an optional `+` sign, then only digits, with
the result checked against the `u32` range. -/
def parseU32 (s : List Char) : Except String Nat :=
  match s with
  | [] => .error "cannot parse integer from empty string"
  | _ =>
    let digits := match s with
      | '+' :: rest => rest
      | _ => s
    if digits.isEmpty then .error "invalid digit found in string"
    else if digits.all Char.isDigit then
      let n := digits.foldl (fun a c => a * 10 + (c.toNat - 48)) 0
      if n < 4294967296 then .ok n
      else .error "number too large to fit in target type"
    else .error "invalid digit found in string"

/-- `FromStr for ValveId`: reads the first two bytes of the word — a
shorter word panics on the byte indexing; the parse itself never
returns a typed error. -/
def ValveId.fromStr : List Char → Option ValveId
  | a :: b :: _ => some ⟨none, (a.toNat, b.toNat)⟩
  | _ => none

/-- `FromStr for Valve`: the `anyhow` context failures (`expected ';'`,
`id not found`, `rate not found`, `expected '='`, integer parse) are
typed errors returned to the caller. -/
def Valve.fromStr (s : List Char) : Option (Except String Valve) :=
  match splitOnceChar ';' s with
  | none => some (.error "expected ';' in the middle")
  | some (first, rest) =>
    let ws := splitWs first
    match ws.get? 1 with
    | none => some (.error "id not found")
    | some idStr =>
      match ValveId.fromStr idStr with
      | none => none
      | some id =>
        match (ws.drop 2).getLast? with
        | none => some (.error "rate not found")
        | some rateWord =>
          match splitOnceChar '=' rateWord with
          | none => some (.error "expected '=' in rate")
          | some rateSplit =>
            match parseU32 rateSplit.2 with
            | .error e => some (.error e)
            | .ok rate =>
              match ((splitWs rest).drop 4).mapM ValveId.fromStr with
              | none => none
              | some nbs => some (.ok ⟨id, nbs, rate⟩)

/-- `HashMap::insert` keyed by `ValveId` (label equality): a later
record with the same label replaces the earlier one. -/
def insertValve : List Valve → Valve → List Valve
  | [], v => [v]
  | w :: rest, v =>
    if w.id.label = v.id.label then v :: rest else w :: insertValve rest v

/-- Parse every input line into the label-keyed map; a typed parse
error or a panic aborts construction. -/
def buildMapAux : List (List Char) → List Valve → Option (Except String (List Valve))
  | [], m => some (.ok m)
  | l :: rest, m =>
    match Valve.fromStr l with
    | none => none
    | some (.error e) => some (.error e)
    | some (.ok v) => buildMapAux rest (insertValve m v)

/-- `sorted_by_key(label)`: lexicographic order on the two label
bytes. -/
def labelLe (a b : Valve) : Prop :=
  a.id.label.1 < b.id.label.1 ∨
    (a.id.label.1 = b.id.label.1 ∧ a.id.label.2 ≤ b.id.label.2)

instance : DecidableRel labelLe := fun a b => by
  unfold labelLe
  infer_instance

/-- Assign dense indices in sorted order (`enumerate`, writing
`v.id.id = Some(i)`). -/
def assignIdsFrom : Nat → List Valve → List Valve
  | _, [] => []
  | i, v :: rest =>
    { v with id := ⟨some i, v.id.label⟩ } :: assignIdsFrom (i + 1) rest

/-- Resolve one neighbour label
(`valves_map.get(n).unwrap().id.numeric()`): a label with no entry, or
an entry with no assigned id, is a panic. -/
def resolveOne (vec : List Valve) (nb : ValveId) : Option ValveId :=
  match vec.find? (fun w => w.id.label == nb.label) with
  | none => none
  | some w =>
    match w.id.id with
    | none => none
    | some k => some ⟨some k, nb.label⟩

/-- Resolve all neighbour references of one valve. -/
def resolveValve (vec : List Valve) (v : Valve) : Option Valve :=
  (v.neighbours.mapM (resolveOne vec)).map fun ns => { v with neighbours := ns }

/-- `Network::build`: parse each line into the map, sort by label and
assign dense indices, then resolve every neighbour reference. -/
def Network.build (input : List Char) : Option (Except String Network) :=
  match buildMapAux (rustLines input) [] with
  | none => none
  | some (.error e) => some (.error e)
  | some (.ok m) =>
    let sortedVec := assignIdsFrom 0 (List.insertionSort labelLe m)
    match sortedVec.mapM (resolveValve sortedVec) with
    | none => none
    | some nodes => some (.ok ⟨nodes⟩)

theorem mapM_option_spec {α β : Type} (f : α → Option β) :
    ∀ (l : List α) (l' : List β), l.mapM f = some l' →
      l'.length = l.length ∧
      (∀ (k : Nat) (a : α), l[k]? = some a → ∃ b, f a = some b ∧ l'[k]? = some b) ∧
      (∀ b ∈ l', ∃ a ∈ l, f a = some b) := by
  intro l
  induction l with
  | nil =>
    intro l' h
    simp only [List.mapM_nil, Option.pure_def, Option.some_inj] at h
    subst h
    exact ⟨rfl, by simp, by simp⟩
  | cons a rest ih =>
    intro l' h
    rw [List.mapM_cons] at h
    simp only [Option.bind_eq_bind, Option.bind_eq_some, Option.pure_def,
      Option.some_inj] at h
    obtain ⟨b, hb, bs, hbs, rfl⟩ := h
    obtain ⟨hlen, hget, hmem⟩ := ih bs hbs
    refine ⟨by simp [hlen], ?_, ?_⟩
    · intro k x hx
      cases k with
      | zero =>
        simp only [List.getElem?_cons_zero, Option.some_inj] at hx
        subst hx
        exact ⟨b, hb, by simp⟩
      | succ j =>
        simp only [List.getElem?_cons_succ] at hx ⊢
        exact hget j x hx
    · intro y hy
      rcases List.mem_cons.mp hy with hy | hy
      · subst hy
        exact ⟨a, List.mem_cons_self _ _, hb⟩
      · obtain ⟨x, hx, hfx⟩ := hmem y hy
        exact ⟨x, List.mem_cons_of_mem _ hx, hfx⟩

theorem assignIdsFrom_get? :
    ∀ (l : List Valve) (n k : Nat),
      (assignIdsFrom n l)[k]? =
        (l[k]?).map fun v => { v with id := ⟨some (n + k), v.id.label⟩ }
  | [], n, k => by simp [assignIdsFrom]
  | v :: rest, n, 0 => by simp [assignIdsFrom]
  | v :: rest, n, k + 1 => by
    have hstep : (assignIdsFrom n (v :: rest))[k + 1]? =
        (assignIdsFrom (n + 1) rest)[k]? := by
      simp [assignIdsFrom]
    rw [hstep, assignIdsFrom_get? rest (n + 1) k, List.getElem?_cons_succ,
      show n + 1 + k = n + (k + 1) by omega]

theorem resolveValve_id {vec : List Valve} {v v' : Valve}
    (h : resolveValve vec v = some v') : v'.id = v.id := by
  unfold resolveValve at h
  cases hm : v.neighbours.mapM (resolveOne vec) with
  | none => rw [hm] at h; exact absurd h (by simp)
  | some ns =>
    rw [hm] at h
    simp only [Option.map_some', Option.some_inj] at h
    rw [← h]

theorem resolveValve_neighbours {vec : List Valve} {v v' : Valve}
    (h : resolveValve vec v = some v') :
    v.neighbours.mapM (resolveOne vec) = some v'.neighbours := by
  unfold resolveValve at h
  cases hm : v.neighbours.mapM (resolveOne vec) with
  | none => rw [hm] at h; exact absurd h (by simp)
  | some ns =>
    rw [hm] at h
    simp only [Option.map_some', Option.some_inj] at h
    rw [← h]

theorem resolveOne_spec {vec : List Valve} {nb nb' : ValveId}
    (h : resolveOne vec nb = some nb') :
    ∃ w k, vec.find? (fun w => w.id.label == nb.label) = some w ∧
      w.id.id = some k ∧ nb' = ⟨some k, nb.label⟩ := by
  unfold resolveOne at h
  cases hf : vec.find? (fun w => w.id.label == nb.label) with
  | none => rw [hf] at h; exact absurd h (by simp)
  | some w =>
    rw [hf] at h
    dsimp only at h
    cases hk : w.id.id with
    | none => rw [hk] at h; exact absurd h (by simp)
    | some k =>
      rw [hk] at h
      dsimp only at h
      simp only [Option.some_inj] at h
      exact ⟨w, k, rfl, hk, h.symm⟩

/-- A graph produced by `Network::build` is well-formed: construction
either fails (typed error or panic) or hands the engine a graph in
which every node stores its own dense index and every neighbour
reference resolves to an existing node carrying that label. -/
theorem build_wf {input : List Char} {g : Network}
    (h : Network.build input = some (.ok g)) : g.wf = true := by
  unfold Network.build at h
  cases hm : buildMapAux (rustLines input) [] with
  | none => rw [hm] at h; exact absurd h (by simp)
  | some r =>
    rw [hm] at h
    cases r with
    | error e => exact absurd h (by simp)
    | ok m =>
      dsimp only at h
      cases hres : (assignIdsFrom 0 (List.insertionSort labelLe m)).mapM
          (resolveValve (assignIdsFrom 0 (List.insertionSort labelLe m))) with
      | none => rw [hres] at h; exact absurd h (by simp)
      | some nodes =>
        rw [hres] at h
        simp only [Option.some_inj, Except.ok.injEq] at h
        subst h
        have hvecid : ∀ (k : Nat) (w : Valve),
            (assignIdsFrom 0 (List.insertionSort labelLe m))[k]? = some w →
            w.id.id = some k := by
          intro k w hw
          rw [assignIdsFrom_get? (List.insertionSort labelLe m) 0 k] at hw
          cases hx : (List.insertionSort labelLe m)[k]? with
          | none => rw [hx] at hw; exact absurd hw (by simp)
          | some x =>
            rw [hx] at hw
            simp only [Option.map_some', Option.some_inj] at hw
            rw [← hw]
            simp
        obtain ⟨hlen, hget, -⟩ := mapM_option_spec _ _ _ hres
        apply wf_of_pointwise
        intro i v hnode
        have hnode' : nodes[i]? = some v := by
          rw [show (Network.mk nodes).node i = nodes.get? i from rfl,
            List.get?_eq_getElem?] at hnode
          exact hnode
        have hi : i < (assignIdsFrom 0 (List.insertionSort labelLe m)).length := by
          rw [← hlen]
          by_contra hcon
          rw [List.getElem?_eq_none_iff.mpr (by omega)] at hnode'
          exact absurd hnode' (by simp)
        have hveci : (assignIdsFrom 0 (List.insertionSort labelLe m))[i]? =
            some (assignIdsFrom 0 (List.insertionSort labelLe m))[i] :=
          List.getElem?_eq_getElem hi
        obtain ⟨b, hresb, hb⟩ := hget i _ hveci
        rw [hnode'] at hb
        have hbv : b = v := by
          injection hb with hbv
          exact hbv.symm
        subst hbv
        rw [Network.wfAt, Bool.and_eq_true]
        constructor
        · rw [resolveValve_id hresb, hvecid i _ hveci]
          simp
        · rw [List.all_eq_true]
          intro nb' hnb'
          obtain ⟨-, -, hmemres⟩ :=
            mapM_option_spec (resolveOne (assignIdsFrom 0 (List.insertionSort labelLe m)))
              _ _ (resolveValve_neighbours hresb)
          obtain ⟨nb, -, hone⟩ := hmemres nb' hnb'
          obtain ⟨w, k, hfind, hwk, rfl⟩ := resolveOne_spec hone
          have hwmem : w ∈ assignIdsFrom 0 (List.insertionSort labelLe m) :=
            List.mem_of_find?_eq_some hfind
          obtain ⟨kw, hkw⟩ := List.mem_iff_get?.mp hwmem
          rw [List.get?_eq_getElem?] at hkw
          have : w.id.id = some kw := hvecid kw w hkw
          rw [hwk] at this
          have hkkw : k = kw := by injection this
          subst hkkw
          obtain ⟨bk, hresbk, hbk⟩ := hget k w hkw
          have hlbl : w.id.label = nb.label := by
            have := List.find?_some hfind
            simpa using this
          show (match (⟨some k, nb.label⟩ : ValveId).id with
            | some j =>
              match (Network.mk nodes).node j with
              | some w => w.id.label == nb.label
              | none => false
            | none => false) = true
          dsimp only
          rw [show (Network.mk nodes).node k = nodes.get? k from rfl,
            List.get?_eq_getElem?, hbk]
          dsimp only
          rw [resolveValve_id hresbk, hlbl]
          simp

/-- C5 (amended).  Construction never hands the engine a partially
built graph: a successful `Network::build` yields a well-formed graph
(every node stores its own dense index and every neighbour reference
resolves to an existing node with that label); and a record with a
missing rate fails with the descriptive typed error `rate not found`,
returned to the caller before any search runs.  (A record whose
neighbour label does not resolve panics instead of returning a typed
error — see the counterexample.) -/
theorem build_typed_error_and_wf :
    (∀ (input : List Char) (g : Network),
      Network.build input = some (.ok g) → g.wf = true) ∧
    Network.build ("Valve AA; tunnels lead to valves AA".data) =
      some (.error "rate not found") :=
  ⟨fun _ _ h => build_wf h, rfl⟩

/-- Counterexample to C5 as stated: a record whose neighbour label
(`ZZ`) resolves to no node makes `Network::build` panic — the `unwrap`
on the missing map entry, modelled as `none` — rather than fail with
the claimed descriptive typed error. -/
theorem build_neighbor_unwrap_panics :
    Network.build ("Valve AA has flow rate=1; tunnels lead to valves ZZ".data) = none ∧
    ∀ e : String,
      Network.build ("Valve AA has flow rate=1; tunnels lead to valves ZZ".data) ≠
        some (.error e) := by
  have hnone : Network.build
      ("Valve AA has flow rate=1; tunnels lead to valves ZZ".data) = none := rfl
  refine ⟨hnone, ?_⟩
  intro e h
  rw [hnone] at h
  exact absurd h (by simp)

/-- Witness for the amended C5 on a two-record input that builds. -/
theorem build_typed_error_and_wf_witness :
    Network.build
        ("Valve BB has flow rate=13; tunnels lead to valves AA\nValve AA has flow rate=0; tunnels lead to valves BB".data) =
      some (.ok ⟨[⟨⟨some 0, (65, 65)⟩, [⟨some 1, (66, 66)⟩], 0⟩,
                  ⟨⟨some 1, (66, 66)⟩, [⟨some 0, (65, 65)⟩], 13⟩]⟩) ∧
    Network.wf ⟨[⟨⟨some 0, (65, 65)⟩, [⟨some 1, (66, 66)⟩], 0⟩,
                 ⟨⟨some 1, (66, 66)⟩, [⟨some 0, (65, 65)⟩], 13⟩]⟩ = true := by
  have hb : Network.build
      ("Valve BB has flow rate=13; tunnels lead to valves AA\nValve AA has flow rate=0; tunnels lead to valves BB".data) =
      some (.ok ⟨[⟨⟨some 0, (65, 65)⟩, [⟨some 1, (66, 66)⟩], 0⟩,
                  ⟨⟨some 1, (66, 66)⟩, [⟨some 0, (65, 65)⟩], 13⟩]⟩) := rfl
  exact ⟨hb, build_typed_error_and_wf.1 _ _ hb⟩

end Day16
